import Mathlib

/-!
# Pooled snappy codec for gRPC (experimental/klauspost_snappy)

A shallow embedding of `klauspost_snappy.go`: the codec `compressor` with its two
`sync.Pool`s, the stream wrappers `writer` and `reader`, and the operations
`init`, `Compress`, `Decompress`, `Name`, `writer.Close`, `reader.Read`.

The compression engine (`github.com/klauspost/compress/s2`) and the `io` streams are
external collaborators; they enter as the parameter `Engine`.  Pointers to wrappers
are addresses into an explicit heap, so that identity of wrappers is observable.
-/

namespace KlauspostSnappy

/-! ## Values of the Go runtime -/

/-- One byte of a stream. -/
abbrev Byte := Fin 256

/-- Non-nil values of the Go interface type error.  EOF is the sentinel io.EOF. -/
inductive GoError where
  | EOF
  | other (code : Nat)
deriving DecidableEq, Repr

/-- The Go type error: none is the nil error. -/
abbrev error := Option GoError

/-- The end-of-stream signal io.EOF as an error value. -/
def io.EOF : error := some GoError.EOF

/-- Result of a Go call that may panic. -/
inductive Outcome (α : Type) where
  | ok (a : α)
  | panic (msg : String)

/-- The external collaborators: the s2 stream engine and the io streams it is bound to.
Writer and Reader are the states of *s2.Writer and *s2.Reader, the bound sink or
source included. -/
structure Engine where
  /-- State of an s2.Writer, including the io.Writer it is bound to. -/
  Writer : Type
  /-- State of an s2.Reader, including the io.Reader it is bound to. -/
  Reader : Type
  /-- Values of io.Writer. -/
  Sink : Type
  /-- Values of io.Reader. -/
  Source : Type
  /-- The sink ioutil.Discard. -/
  Discard : Sink
  /-- The call s2.NewWriter(w, s2.WriterSnappyCompat()). -/
  NewWriter : Sink → Writer
  /-- The method (*s2.Writer).Reset(w). -/
  WriterReset : Writer → Sink → Writer
  /-- The method (*s2.Writer).Write(p), returning the new state and (n, err). -/
  WriterWrite : Writer → List Byte → Writer × Int × error
  /-- The method (*s2.Writer).Close(), returning the new state and err. -/
  WriterClose : Writer → Writer × error
  /-- The call s2.NewReader(r, s2.ReaderAllocBlock(blockSize)). -/
  NewReader : Source → Nat → Reader
  /-- The method (*s2.Reader).Reset(r). -/
  ReaderReset : Reader → Source → Reader
  /-- The method (*s2.Reader).Read(p): new state, contents of p afterwards, and (n, err). -/
  ReaderRead : Reader → List Byte → Reader × List Byte × Int × error
  /-- The bytes the io.Writer bound to a writer has received so far. -/
  Received : Writer → List Byte
  /-- The call bytes.NewReader(b): an io.Reader over the given bytes. -/
  BytesReader : List Byte → Source

/-! ## Data model -/

/-- The two values a *sync.Pool back-reference takes in this package:
&c.poolCompressor and &c.poolDecompressor. -/
inductive PoolRef where
  | poolCompressor
  | poolDecompressor
deriving DecidableEq, Repr

/-- Non-nil values of interface type stored in a pool: a *writer or a *reader, with the
heap address of the wrapper it points to. -/
inductive Iface where
  | writer (addr : Nat)
  | reader (addr : Nat)
deriving DecidableEq, Repr

/-- The struct writer: the embedded *s2.Writer and the pool back-reference. -/
structure writer (E : Engine) where
  Writer : E.Writer
  pool : PoolRef

/-- The struct reader: the embedded *s2.Reader and the pool back-reference. -/
structure reader (E : Engine) where
  Reader : E.Reader
  pool : PoolRef

/-- The heap of wrapper objects; a *writer is an index into writers, a *reader an index
into readers.  Allocation appends. -/
structure Heap (E : Engine) where
  writers : List (writer E)
  readers : List (reader E)

/-- Modelled from the spec: sync.Pool, which is not part of the package.  The spec's
Instance Pool is an unordered, unbounded bag of idle instances that is not drained;
idle holds the bag and New is the optional constructor field of sync.Pool. -/
structure Pool (E : Engine) where
  idle : List Iface
  New : Option (Heap E → Heap E × Iface)

/-- Modelled from the spec: sync.Pool.Get.  An arbitrary idle instance (selected by
choice) is removed and returned; on an empty pool New is called when it is set, and
nil is returned otherwise. -/
def Pool.Get {E : Engine} (p : Pool E) (choice : Nat) (h : Heap E) :
    Pool E × Heap E × Option Iface :=
  match p.idle with
  | [] =>
    match p.New with
    | none => (p, h, none)
    | some f => (p, (f h).1, some (f h).2)
  | x :: xs =>
    ({ p with idle := (x :: xs).eraseIdx (choice % (x :: xs).length) }, h,
      (x :: xs)[choice % (x :: xs).length]?)

/-- Modelled from the spec: sync.Pool.Put adds the instance to the bag. -/
def Pool.Put {E : Engine} (p : Pool E) (x : Iface) : Pool E :=
  { p with idle := x :: p.idle }

/-- The struct compressor together with the heap its wrappers live in. -/
structure State (E : Engine) where
  heap : Heap E
  poolCompressor : Pool E
  poolDecompressor : Pool E

/-- The call z.pool.Put(x): Put on the pool the back-reference designates. -/
def State.put {E : Engine} (c : State E) (ref : PoolRef) (x : Iface) : State E :=
  match ref with
  | PoolRef.poolCompressor => { c with poolCompressor := c.poolCompressor.Put x }
  | PoolRef.poolDecompressor => { c with poolDecompressor := c.poolDecompressor.Put x }

/-! ## Operations of the package -/

/-- The exported constant Name. -/
def Name : String := "snappy"

/-- The closure assigned to c.poolCompressor.New in init: allocate a writer around a
new engine writer bound to ioutil.Discard, with back-reference &c.poolCompressor. -/
def poolCompressorNew (E : Engine) (h : Heap E) : Heap E × Iface :=
  ({ h with writers := h.writers ++
      [{ Writer := E.NewWriter E.Discard, pool := PoolRef.poolCompressor }] },
    Iface.writer h.writers.length)

/-- The method compressor.Name. -/
def compressor.Name {E : Engine} (_c : State E) : String := KlauspostSnappy.Name

/-- Modelled from the spec: encoding.RegisterCompressor of the host framework, a table
from identifier to adapter where the last registration under a name wins.  Only the
identifiers are kept. -/
def RegisterCompressor (table : List String) (name : String) : List String :=
  name :: table.filter (fun k => k ≠ name)

/-- The function init: the codec with empty pools, New set on the compressor pool only,
registered in the framework table under its Name. -/
def init (E : Engine) (table : List String) : State E × List String :=
  let c : State E :=
    { heap := { writers := [], readers := [] }
      poolCompressor := { idle := [], New := some (poolCompressorNew E) }
      poolDecompressor := { idle := [], New := none } }
  (c, RegisterCompressor table (compressor.Name c))

/-- The method compressor.Compress.  The unchecked assertion to *writer panics on any
other value. -/
def Compress {E : Engine} (c : State E) (w : E.Sink) (choice : Nat) :
    Outcome (State E × Nat × error) :=
  match c.poolCompressor.Get choice c.heap with
  | (p, h, some (Iface.writer z)) =>
    match h.writers[z]? with
    | some obj =>
      Outcome.ok
        ({ heap := { h with writers :=
                      h.writers.set z { obj with Writer := E.WriterReset obj.Writer w } }
           poolCompressor := p
           poolDecompressor := c.poolDecompressor }, z, none)
    | none => Outcome.panic "invalid memory address or nil pointer dereference"
  | (_, _, _) => Outcome.panic "interface conversion: interface is not *writer"

/-- The method compressor.Decompress.  The checked assertion to *reader yields
inPool = false on nil or on any other value, and then a new reader is constructed. -/
def Decompress {E : Engine} (c : State E) (r : E.Source) (choice : Nat) :
    Outcome (State E × Nat × error) :=
  match c.poolDecompressor.Get choice c.heap with
  | (p, h, some (Iface.reader z)) =>
    match h.readers[z]? with
    | some obj =>
      Outcome.ok
        ({ heap := { h with readers :=
                      h.readers.set z { obj with Reader := E.ReaderReset obj.Reader r } }
           poolCompressor := c.poolCompressor
           poolDecompressor := p }, z, none)
    | none => Outcome.panic "invalid memory address or nil pointer dereference"
  | (p, h, _) =>
    Outcome.ok
      ({ heap := { h with readers := h.readers ++
                    [{ Reader := E.NewReader r (64 <<< 10), pool := PoolRef.poolDecompressor }] }
         poolCompressor := c.poolCompressor
         poolDecompressor := p }, h.readers.length, none)

/-- The promoted method writer.Write of the embedded *s2.Writer; none when z is not
the address of a writer. -/
def writer.Write {E : Engine} (c : State E) (z : Nat) (p : List Byte) :
    Option (State E × Int × error) :=
  match c.heap.writers[z]? with
  | none => none
  | some obj =>
    let res := E.WriterWrite obj.Writer p
    let ws := c.heap.writers.set z { obj with Writer := res.1 }
    some ({ c with heap := { writers := ws, readers := c.heap.readers } }, res.2.1, res.2.2)

/-- The method writer.Close; none when z is not the address of a writer. -/
def writer.Close {E : Engine} (c : State E) (z : Nat) : Option (State E × error) :=
  match c.heap.writers[z]? with
  | none => none
  | some obj =>
    let res := E.WriterClose obj.Writer
    let ws := c.heap.writers.set z { obj with Writer := res.1 }
    let c1 : State E := { c with heap := { writers := ws, readers := c.heap.readers } }
    some (c1.put obj.pool (Iface.writer z), res.2)

/-- The method reader.Read; none when z is not the address of a reader.  The result
holds the contents of p after the call and the pair (n, err). -/
def reader.Read {E : Engine} (c : State E) (z : Nat) (p : List Byte) :
    Option (State E × List Byte × Int × error) :=
  match c.heap.readers[z]? with
  | none => none
  | some obj =>
    let res := E.ReaderRead obj.Reader p
    let rs := c.heap.readers.set z { obj with Reader := res.1 }
    let c1 : State E := { c with heap := { writers := c.heap.writers, readers := rs } }
    let c2 := if res.2.2.2 = io.EOF then c1.put obj.pool (Iface.reader z) else c1
    some (c2, res.2.1, res.2.2.1, res.2.2.2)

/-! ## Call sequences -/

/-- One call a client of the codec can make. -/
inductive Call (E : Engine) where
  | Compress (w : E.Sink) (choice : Nat)
  | Decompress (r : E.Source) (choice : Nat)
  | Write (z : Nat) (p : List Byte)
  | Close (z : Nat)
  | Read (z : Nat) (p : List Byte)

/-- Effect of one call on the codec; none when the call panics or is made on an
address that holds no wrapper. -/
def step {E : Engine} (c : State E) : Call E → Option (State E)
  | Call.Compress w choice =>
    match Compress c w choice with
    | Outcome.ok r => some r.1
    | Outcome.panic _ => none
  | Call.Decompress r choice =>
    match Decompress c r choice with
    | Outcome.ok r => some r.1
    | Outcome.panic _ => none
  | Call.Write z p => (writer.Write c z p).map (fun r => r.1)
  | Call.Close z => (writer.Close c z).map (fun r => r.1)
  | Call.Read z p => (reader.Read c z p).map (fun r => r.1)

/-- Effect of a sequence of calls, left to right. -/
def run {E : Engine} (c : State E) : List (Call E) → Option (State E)
  | [] => some c
  | k :: ks =>
    match step c k with
    | none => none
    | some c1 => run c1 ks

/-- The states reachable from init by some sequence of calls. -/
def Reachable {E : Engine} (c : State E) : Prop :=
  ∃ table calls, run (init E table).1 calls = some c

/-! ## The invariant of the codec -/

/-- The invariant of the codec: the constructors of the two pools are the ones init
installs, every wrapper points back to the pool of its role, and the pools hold only
addresses of allocated wrappers of their role. -/
structure Inv {E : Engine} (c : State E) : Prop where
  newC : c.poolCompressor.New = some (poolCompressorNew E)
  newD : c.poolDecompressor.New = none
  wpool : ∀ obj ∈ c.heap.writers, obj.pool = PoolRef.poolCompressor
  rpool : ∀ obj ∈ c.heap.readers, obj.pool = PoolRef.poolDecompressor
  idleC : ∀ x ∈ c.poolCompressor.idle, ∃ a, x = Iface.writer a ∧ a < c.heap.writers.length
  idleD : ∀ x ∈ c.poolDecompressor.idle, ∃ a, x = Iface.reader a ∧ a < c.heap.readers.length

/-! ## Sessions as a caller drives them -/

/-- The caller writes the chunks one after the other through the wrapper; the pairs
(n, err) of the Write calls are collected.  none when z holds no writer. -/
def writeAll {E : Engine} (z : Nat) :
    List (List Byte) → State E → Option (State E × List (Int × error))
  | [], c => some (c, [])
  | p :: ps, c =>
    match writer.Write c z p with
    | none => none
    | some (c1, n, err) =>
      match writeAll z ps c1 with
      | none => none
      | some (c2, rs) => some (c2, (n, err) :: rs)

/-- Record of one compress session. -/
structure CompressLog (E : Engine) where
  /-- Address of the wrapper Compress returned. -/
  z : Nat
  /-- Engine state of that wrapper after Close, the bound sink included. -/
  engine : E.Writer
  /-- The pairs (n, err) of the Write calls. -/
  writes : List (Int × error)
  /-- The error Close returned. -/
  closeErr : error
  /-- Number of writer wrappers constructed so far; only the New closure of the
  compressor pool allocates one. -/
  constructed : Nat
  /-- The idle instances of the compressor pool after Close. -/
  idle : List Iface

/-- One compress session: Compress on the sink, Write of every chunk, then Close.
none when a call panics or hits an address without wrapper. -/
def compressSession {E : Engine} (c : State E) (w : E.Sink) (chunks : List (List Byte))
    (choice : Nat) : Option (State E × CompressLog E) :=
  match Compress c w choice with
  | Outcome.panic _ => none
  | Outcome.ok (c1, z, _) =>
    match writeAll z chunks c1 with
    | none => none
    | some (c2, rs) =>
      match writer.Close c2 z with
      | none => none
      | some (c3, err) =>
        match c3.heap.writers[z]? with
        | none => none
        | some obj =>
          some (c3, { z := z, engine := obj.Writer, writes := rs, closeErr := err,
                      constructed := c3.heap.writers.length, idle := c3.poolCompressor.idle })

/-- Sequential compress sessions, none overlapping another: each is given by its sink,
its chunks and the choice the pool makes. -/
def compressSessions {E : Engine} :
    List (E.Sink × List (List Byte) × Nat) → State E → Option (State E × List (CompressLog E))
  | [], c => some (c, [])
  | (w, chunks, choice) :: rest, c =>
    match compressSession c w chunks choice with
    | none => none
    | some (c1, log) =>
      match compressSessions rest c1 with
      | none => none
      | some (c2, logs) => some (c2, log :: logs)

/-- The caller reads through the wrapper with a buffer of bufLen bytes until the first
non-nil error, collecting the bytes produced; the error that ended the loop is
returned.  none when the fuel runs out or z holds no reader. -/
def readAll {E : Engine} (bufLen : Nat) (z : Nat) :
    Nat → State E → Option (State E × List Byte × GoError)
  | 0, _ => none
  | fuel + 1, c =>
    match reader.Read c z (List.replicate bufLen 0) with
    | none => none
    | some (c1, p1, n, some e) => some (c1, p1.take n.toNat, e)
    | some (c1, p1, n, none) =>
      match readAll bufLen z fuel c1 with
      | none => none
      | some (c2, bs, e) => some (c2, p1.take n.toNat ++ bs, e)

/-- The engine writer used directly: Write of every chunk, collecting (n, err). -/
def Engine.writeAll (E : Engine) : List (List Byte) → E.Writer → E.Writer × List (Int × error)
  | [], s => (s, [])
  | p :: ps, s =>
    ((Engine.writeAll E ps (E.WriterWrite s p).1).1,
      ((E.WriterWrite s p).2.1, (E.WriterWrite s p).2.2) ::
        (Engine.writeAll E ps (E.WriterWrite s p).1).2)

/-- The engine writer used directly for one stream: Write of every chunk, then Close.
The result is the final engine state, the pairs (n, err), and the error of Close. -/
def Engine.session (E : Engine) (s : E.Writer) (chunks : List (List Byte)) :
    E.Writer × List (Int × error) × error :=
  ((E.WriterClose (Engine.writeAll E chunks s).1).1, (Engine.writeAll E chunks s).2,
    (E.WriterClose (Engine.writeAll E chunks s).1).2)

/-- The engine reader used directly: Read with a buffer of bufLen bytes until the first
non-nil error.  none when the fuel runs out. -/
def Engine.readAll (E : Engine) (bufLen : Nat) :
    Nat → E.Reader → Option (E.Reader × List Byte × GoError)
  | 0, _ => none
  | fuel + 1, r =>
    match E.ReaderRead r (List.replicate bufLen 0) with
    | (r1, p1, n, some e) => some (r1, p1.take n.toNat, e)
    | (r1, p1, n, none) =>
      match Engine.readAll E bufLen fuel r1 with
      | none => none
      | some (r2, bs, e) => some (r2, p1.take n.toNat ++ bs, e)

/-- Round trip through the engine alone: a newly constructed writer reset to the sink
compresses the chunks, and a newly constructed reader over the bytes the sink received
is read until the first error.  The result is the bytes read and that error. -/
def Engine.roundTrip (E : Engine) (w : E.Sink) (chunks : List (List Byte))
    (bufLen fuel : Nat) : Option (List Byte × GoError) :=
  (Engine.readAll E bufLen fuel
    (E.NewReader
      (E.BytesReader
        (E.Received (Engine.session E (E.WriterReset (E.NewWriter E.Discard) w) chunks).1))
      (64 <<< 10))).map (fun r => r.2)

/-- Round trip through the codec: a compress session on the sink, then Decompress on the
bytes the sink received and reads until the first error. -/
def roundTrip {E : Engine} (c : State E) (w : E.Sink) (chunks : List (List Byte))
    (choiceC choiceD bufLen fuel : Nat) : Option (List Byte × GoError) :=
  match compressSession c w chunks choiceC with
  | none => none
  | some (c3, log) =>
    match Decompress c3 (E.BytesReader (E.Received log.engine)) choiceD with
    | Outcome.panic _ => none
    | Outcome.ok (c4, z, _) => (readAll bufLen z fuel c4).map (fun r => r.2)

/-- Record of one decompress session. -/
structure DecompressLog (E : Engine) where
  /-- Address of the wrapper Decompress returned. -/
  z : Nat
  /-- Whether Decompress constructed a new engine reader (the heap grew). -/
  constructed : Bool
  /-- Engine state of the wrapper right after Decompress. -/
  bound : E.Reader
  /-- Whether a Read of the session returned io.EOF. -/
  eof : Bool
  /-- Engine state of the wrapper at the end of the session. -/
  last : E.Reader
  /-- Size of the decompressor pool after Decompress and after every Read. -/
  idleSizes : List Nat
  /-- The idle instances of the decompressor pool at the end of the session. -/
  idle : List Iface

/-- The caller reads with the given buffers in turn and stops after the first Read that
returns io.EOF; when the buffers run out first the session is abandoned.  The result
tells whether io.EOF was seen and lists the pool sizes after every Read. -/
def readUntilEOF {E : Engine} (z : Nat) :
    List (List Byte) → State E → Option (State E × Bool × List Nat)
  | [], c => some (c, false, [])
  | p :: ps, c =>
    match reader.Read c z p with
    | none => none
    | some (c1, _, _, err) =>
      if err = io.EOF then some (c1, true, [c1.poolDecompressor.idle.length])
      else
        match readUntilEOF z ps c1 with
        | none => none
        | some (c2, b, ns) => some (c2, b, c1.poolDecompressor.idle.length :: ns)

/-- One decompress session: Decompress on the source, then reads until io.EOF or until
the caller gives up. -/
def decompressSession {E : Engine} (c : State E) (r : E.Source) (bufs : List (List Byte))
    (choice : Nat) : Option (State E × DecompressLog E) :=
  match Decompress c r choice with
  | Outcome.panic _ => none
  | Outcome.ok (c1, z, _) =>
    match c1.heap.readers[z]? with
    | none => none
    | some obj1 =>
      match readUntilEOF z bufs c1 with
      | none => none
      | some (c2, eof, ns) =>
        match c2.heap.readers[z]? with
        | none => none
        | some obj2 =>
          some (c2, { z := z
                      constructed := decide (c.heap.readers.length < c1.heap.readers.length)
                      bound := obj1.Reader
                      eof := eof
                      last := obj2.Reader
                      idleSizes := c1.poolDecompressor.idle.length :: ns
                      idle := c2.poolDecompressor.idle })

/-- Sequential decompress sessions: each is given by its source, the buffers of its
reads and the choice the pool makes.  The session is kept with its log. -/
def decompressSessions {E : Engine} :
    List (E.Source × List (List Byte) × Nat) → State E →
      Option (State E × List ((E.Source × List (List Byte) × Nat) × DecompressLog E))
  | [], c => some (c, [])
  | (r, bufs, choice) :: rest, c =>
    match decompressSession c r bufs choice with
    | none => none
    | some (c1, log) =>
      match decompressSessions rest c1 with
      | none => none
      | some (c2, logs) => some (c2, ((r, bufs, choice), log) :: logs)

/-- The engine reader used directly with the buffers of a session: Read with each buffer
in turn until the first Read that returns io.EOF.  The result is the final engine state
and whether io.EOF was reached before the buffers ran out. -/
def Engine.readUntilEOF (E : Engine) : List (List Byte) → E.Reader → E.Reader × Bool
  | [], r => (r, false)
  | p :: ps, r =>
    if (E.ReaderRead r p).2.2.2 = io.EOF then ((E.ReaderRead r p).1, true)
    else Engine.readUntilEOF E ps (E.ReaderRead r p).1

/-- How a decompress session relates to the one before it, in terms of what the engine
does on the earlier session.  When the engine reaches io.EOF within the buffers of the
earlier session, the next Decompress constructs nothing and hands out the same wrapper,
Reset from the state the engine ended in to the new source.  When it does not, the
earlier wrapper is not idle in the pool and the next Decompress constructs a new reader
on its source. -/
def SessionFollows {E : Engine}
    (l l1 : (E.Source × List (List Byte) × Nat) × DecompressLog E) : Prop :=
  ((Engine.readUntilEOF E l.1.2.1 l.2.bound).2 = true →
    l1.2.constructed = false ∧ l1.2.z = l.2.z ∧
    l1.2.bound = E.ReaderReset (Engine.readUntilEOF E l.1.2.1 l.2.bound).1 l1.1.1) ∧
  ((Engine.readUntilEOF E l.1.2.1 l.2.bound).2 = false →
    Iface.reader l.2.z ∉ l.2.idle ∧ l1.2.constructed = true ∧
    l1.2.bound = E.NewReader l1.1.1 (64 <<< 10))

/-- What a decompress session records agrees with the engine used directly on the state
Decompress bound: io.EOF is seen exactly when the engine reaches it within the buffers,
the wrapper ends in the state the engine ends in, and the wrapper is the only idle
instance of the pool afterwards exactly when io.EOF was seen. -/
def SessionAgrees {E : Engine}
    (l : (E.Source × List (List Byte) × Nat) × DecompressLog E) : Prop :=
  l.2.eof = (Engine.readUntilEOF E l.1.2.1 l.2.bound).2 ∧
  l.2.last = (Engine.readUntilEOF E l.1.2.1 l.2.bound).1 ∧
  l.2.idle = (if (Engine.readUntilEOF E l.1.2.1 l.2.bound).2 = true
    then [Iface.reader l.2.z] else []) ∧
  ∀ n ∈ l.2.idleSizes, n ≤ 1

/-! ## Ownership

Which wrappers callers hold is not part of the program state; it is tracked next to it.
A caller holds a wrapper from the acquisition that returned it until the wrapper is
put back: at Close for a writer, at the Read that returns io.EOF for a reader. -/

/-- One call of a caller that uses only wrappers it holds.  none when the call is made on
a wrapper that is not held, or when the call itself fails. -/
def stepOwned {E : Engine} (c : State E) (held : List Iface) :
    Call E → Option (State E × List Iface)
  | Call.Compress w choice =>
    match Compress c w choice with
    | Outcome.ok (c1, z, _) => some (c1, Iface.writer z :: held)
    | Outcome.panic _ => none
  | Call.Decompress r choice =>
    match Decompress c r choice with
    | Outcome.ok (c1, z, _) => some (c1, Iface.reader z :: held)
    | Outcome.panic _ => none
  | Call.Write z p =>
    if Iface.writer z ∈ held then (writer.Write c z p).map (fun r => (r.1, held)) else none
  | Call.Close z =>
    if Iface.writer z ∈ held then
      (writer.Close c z).map (fun r => (r.1, held.erase (Iface.writer z)))
    else none
  | Call.Read z p =>
    if Iface.reader z ∈ held then
      (reader.Read c z p).map (fun r =>
        (r.1, if r.2.2.2 = io.EOF then held.erase (Iface.reader z) else held))
    else none

/-- A sequence of calls of callers that use only wrappers they hold. -/
def runOwned {E : Engine} (c : State E) (held : List Iface) :
    List (Call E) → Option (State E × List Iface)
  | [] => some (c, held)
  | k :: ks =>
    match stepOwned c held k with
    | none => none
    | some (c1, held1) => runOwned c1 held1 ks

/-- Exclusive ownership of wrappers: besides the invariant of the codec, no wrapper is
idle twice in a pool, no wrapper is held twice, no held wrapper is idle in a pool, and
every held wrapper is allocated. -/
structure Owned {E : Engine} (c : State E) (held : List Iface) : Prop where
  inv : Inv c
  nodupC : c.poolCompressor.idle.Nodup
  nodupD : c.poolDecompressor.idle.Nodup
  nodupH : held.Nodup
  disjC : ∀ x ∈ held, x ∉ c.poolCompressor.idle
  disjD : ∀ x ∈ held, x ∉ c.poolDecompressor.idle
  validW : ∀ a, Iface.writer a ∈ held → a < c.heap.writers.length
  validR : ∀ a, Iface.reader a ∈ held → a < c.heap.readers.length

/-! ## Interleaved sessions

Several callers share the codec.  Each runs one session; a schedule picks which caller
makes its next call, so the calls of the sessions interleave in any order.  A call is
one step: the pool is the concurrency-safe bag of the spec, and what happens inside a
call is not interleaved. -/

/-- The session a caller runs: a compress session on a sink with the chunks to write, or
a decompress session on a source with the buffers of its reads. -/
inductive Session (E : Engine) where
  | compress (w : E.Sink) (chunks : List (List Byte))
  | decompress (r : E.Source) (bufs : List (List Byte))

/-- How far a caller has come in its session. -/
inductive Progress (E : Engine) where
  /-- The caller has not acquired a wrapper yet. -/
  | idle
  /-- The caller holds the writer z; rest is still to be written and rs are the pairs
  (n, err) of the Write calls so far. -/
  | writing (z : Nat) (rest : List (List Byte)) (rs : List (Int × error))
  /-- The compress session is over: engine state of the wrapper after Close, the pairs
  (n, err) of the Write calls, and the error of Close. -/
  | wrote (engine : E.Writer) (rs : List (Int × error)) (closeErr : error)
  /-- The caller holds the reader z; rest are the buffers still to be used and out the
  bytes read so far. -/
  | reading (z : Nat) (rest : List (List Byte)) (out : List Byte)
  /-- The decompress session is over: the bytes read, and the error that ended it (none
  when the caller ran out of buffers). -/
  | readDone (out : List Byte) (e : Option GoError)

/-- The wrapper a caller holds, if any. -/
def Progress.wrapper {E : Engine} : Progress E → Option Iface
  | Progress.writing z _ _ => some (Iface.writer z)
  | Progress.reading z _ _ => some (Iface.reader z)
  | _ => none

/-- The next call of a caller.  A compress session is Compress, Write of every chunk,
Close.  A decompress session is Decompress, then Read with each buffer until the first
non-nil error.  A caller whose session is over does nothing.  none when the call panics
or hits an address without wrapper. -/
def stepCaller {E : Engine} (c : State E) (t : Session E) (p : Progress E) (choice : Nat) :
    Option (State E × Progress E) :=
  match p with
  | Progress.idle =>
    match t with
    | Session.compress w chunks =>
      match Compress c w choice with
      | Outcome.ok (c1, z, _) => some (c1, Progress.writing z chunks [])
      | Outcome.panic _ => none
    | Session.decompress r bufs =>
      match Decompress c r choice with
      | Outcome.ok (c1, z, _) => some (c1, Progress.reading z bufs [])
      | Outcome.panic _ => none
  | Progress.writing z (q :: rest) rs =>
    match writer.Write c z q with
    | none => none
    | some (c1, n, err) => some (c1, Progress.writing z rest (rs ++ [(n, err)]))
  | Progress.writing z [] rs =>
    match writer.Close c z with
    | none => none
    | some (c1, err) =>
      match c1.heap.writers[z]? with
      | none => none
      | some obj => some (c1, Progress.wrote obj.Writer rs err)
  | Progress.reading z (q :: rest) out =>
    match reader.Read c z q with
    | none => none
    | some (c1, p1, n, some e) => some (c1, Progress.readDone (out ++ p1.take n.toNat) (some e))
    | some (c1, p1, n, none) => some (c1, Progress.reading z rest (out ++ p1.take n.toNat))
  | Progress.reading _ [] out => some (c, Progress.readDone out none)
  | Progress.wrote engine rs closeErr => some (c, Progress.wrote engine rs closeErr)
  | Progress.readDone out e => some (c, Progress.readDone out e)

/-- The callers run under a schedule: each entry names the caller that makes its next
call and the choice the pool makes should the call be an acquisition.  An entry that
names no caller is skipped.  none when a call panics or fails. -/
def runSchedule {E : Engine} (sessions : List (Session E)) :
    List (Nat × Nat) → State E → List (Progress E) → Option (State E × List (Progress E))
  | [], c, ps => some (c, ps)
  | (i, choice) :: rest, c, ps =>
    match sessions[i]?, ps[i]? with
    | some t, some p =>
      match stepCaller c t p choice with
      | none => none
      | some (c1, p1) => runSchedule sessions rest c1 (ps.set i p1)
    | _, _ => runSchedule sessions rest c ps

/-- The engine reader used directly with the buffers of a caller: Read with each buffer
in turn until the first non-nil error.  The result is the bytes read and that error
(none when the buffers ran out). -/
def Engine.readBufs (E : Engine) : List (List Byte) → E.Reader → List Byte × Option GoError
  | [], _ => ([], none)
  | p :: ps, r =>
    match (E.ReaderRead r p).2.2.2 with
    | some e => ((E.ReaderRead r p).2.1.take (E.ReaderRead r p).2.2.1.toNat, some e)
    | none =>
      ((E.ReaderRead r p).2.1.take (E.ReaderRead r p).2.2.1.toNat ++
          (Engine.readBufs E ps (E.ReaderRead r p).1).1,
        (Engine.readBufs E ps (E.ReaderRead r p).1).2)

/-- The progress of a caller agrees with the engine used alone on the session of that
caller.  A finished compress session has the engine state, Write results and Close
error that a newly constructed writer reset to the sink gives on the chunks; a finished
decompress session has the bytes and the final error that a newly constructed reader on
the source gives with the buffers.  A session under way has produced a part of that
result, and what the engine gives from the current state of the held wrapper on the
rest completes it. -/
def Agrees {E : Engine} (c : State E) (t : Session E) (p : Progress E) : Prop :=
  match t, p with
  | _, Progress.idle => True
  | Session.compress w chunks, Progress.writing z rest rs =>
    ∃ s, c.heap.writers[z]? = some { Writer := s, pool := PoolRef.poolCompressor } ∧
      Engine.session E (E.WriterReset (E.NewWriter E.Discard) w) chunks =
        ((Engine.session E s rest).1, rs ++ (Engine.session E s rest).2.1,
          (Engine.session E s rest).2.2)
  | Session.compress w chunks, Progress.wrote engine rs closeErr =>
    (engine, rs, closeErr) =
      Engine.session E (E.WriterReset (E.NewWriter E.Discard) w) chunks
  | Session.decompress r bufs, Progress.reading z rest out =>
    ∃ rd, c.heap.readers[z]? = some { Reader := rd, pool := PoolRef.poolDecompressor } ∧
      Engine.readBufs E bufs (E.NewReader r (64 <<< 10)) =
        (out ++ (Engine.readBufs E rest rd).1, (Engine.readBufs E rest rd).2)
  | Session.decompress r bufs, Progress.readDone out e =>
    (out, e) = Engine.readBufs E bufs (E.NewReader r (64 <<< 10))
  | _, _ => False

/-- The invariant of interleaved sessions: the invariant of the codec, no wrapper idle
twice in a pool, no held wrapper idle in a pool, no wrapper held by two callers, and
every caller in agreement with the engine on its own session. -/
structure Interleaved {E : Engine} (c : State E) (sessions : List (Session E))
    (ps : List (Progress E)) : Prop where
  inv : Inv c
  len : ps.length = sessions.length
  nodupC : c.poolCompressor.idle.Nodup
  nodupD : c.poolDecompressor.idle.Nodup
  notIdle : ∀ (i : Nat) (p : Progress E) (x : Iface), ps[i]? = some p → p.wrapper = some x →
    x ∉ c.poolCompressor.idle ∧ x ∉ c.poolDecompressor.idle
  distinct : ∀ (i j : Nat) (p q : Progress E) (x : Iface), i ≠ j → ps[i]? = some p →
    ps[j]? = some q → p.wrapper = some x → q.wrapper ≠ some x
  agrees : ∀ (i : Nat) (t : Session E) (p : Progress E), sessions[i]? = some t →
    ps[i]? = some p → Agrees c t p

/-! ## A small engine for concrete runs

A stored-mode engine: the compressed stream is the input itself.  It has the
capabilities the package uses (reset, buffered write, close with flush, read to
end-of-stream) and a sink that can fail. -/

namespace Stored

/-- An in-memory sink: the bytes received, and whether writes to it fail. -/
structure Sink where
  data : List Byte
  broken : Bool
deriving DecidableEq, Repr

/-- State of the stored-mode writer. -/
structure Writer where
  sink : Sink
  ibuf : List Byte
  errState : error
deriving DecidableEq, Repr

/-- State of the stored-mode reader: what is left of the source. -/
structure Reader where
  src : List Byte
deriving DecidableEq, Repr

/-- A new writer on the sink. -/
def newWriter (w : Sink) : Writer := { sink := w, ibuf := [], errState := none }

/-- Write buffers the bytes unless an earlier error is pending. -/
def write (s : Writer) (p : List Byte) : Writer × Int × error :=
  match s.errState with
  | some e => (s, 0, some e)
  | none => ({ s with ibuf := s.ibuf ++ p }, p.length, none)

/-- Close flushes the buffer to the sink; a broken sink makes it fail and the buffer
stays. -/
def close (s : Writer) : Writer × error :=
  match s.errState with
  | some e => (s, some e)
  | none =>
    if s.sink.broken then ({ s with errState := some (GoError.other 1) }, some (GoError.other 1))
    else ({ sink := { s.sink with data := s.sink.data ++ s.ibuf }, ibuf := [], errState := none },
      none)

/-- Read copies up to len(p) bytes; at the end of the source it returns io.EOF. -/
def read (r : Reader) (p : List Byte) : Reader × List Byte × Int × error :=
  if p.length = 0 then (r, p, 0, none)
  else if r.src = [] then (r, p, 0, io.EOF)
  else ({ src := r.src.drop p.length }, r.src.take p.length ++ p.drop r.src.length,
    (min p.length r.src.length : Nat), none)

end Stored

/-- The stored-mode engine. -/
def storedEngine : Engine where
  Writer := Stored.Writer
  Reader := Stored.Reader
  Sink := Stored.Sink
  Source := List Byte
  Discard := { data := [], broken := false }
  NewWriter := Stored.newWriter
  WriterReset := fun _ w => Stored.newWriter w
  WriterWrite := Stored.write
  WriterClose := Stored.close
  NewReader := fun r _ => { src := r }
  ReaderReset := fun _ r => { src := r }
  ReaderRead := Stored.read
  Received := fun s => s.sink.data
  BytesReader := fun b => b

/-- The stored-mode codec as init leaves it. -/
def storedInit : State storedEngine := (init storedEngine []).1

/-- The stored-mode codec after the given calls (as init leaves it if a call fails). -/
def storedRun (calls : List (Call storedEngine)) : State storedEngine :=
  (run storedInit calls).getD storedInit

/-- A full compress session followed by a full decompress session. -/
def fullSessions : List (Call storedEngine) :=
  [Call.Compress { data := [], broken := false } 0, Call.Close 0,
    Call.Decompress ([] : List Byte) 0, Call.Read 0 [0]]

/-- A compress session on a failing sink: Close fails and the written bytes stay in the
buffer of the engine. -/
def failedSession : List (Call storedEngine) :=
  [Call.Compress { data := [], broken := true } 0, Call.Write 0 [9, 9], Call.Close 0]

/-- Three decompress sessions, each read until io.EOF. -/
def fullReads : List (List Byte × List (List Byte) × Nat) :=
  [([1, 2, 3], [[0, 0], [0, 0], [0, 0]], 0), ([4, 5], [[0, 0], [0, 0]], 5),
    ([7], [[0], [0]], 1)]

/-- Four decompress sessions: read until io.EOF, abandoned after one Read, read until
io.EOF, read until io.EOF. -/
def mixedReads : List (List Byte × List (List Byte) × Nat) :=
  [([1, 2, 3], [[0, 0], [0, 0], [0, 0]], 0), ([4, 5, 6], [[0, 0]], 5),
    ([7], [[0], [0]], 1), ([8, 9], [[0, 0], [0]], 2)]

/-- The entries of the logs of decompress sessions that are compared in concrete runs:
address of the wrapper, whether it was constructed, whether io.EOF was seen, and the
idle instances of the pool afterwards. -/
def logSummary {E : Engine}
    (r : Option (State E × List ((E.Source × List (List Byte) × Nat) × DecompressLog E))) :
    Option (List (Nat × Bool × Bool × List Iface)) :=
  r.map (fun x => x.2.map (fun l => (l.2.z, l.2.constructed, l.2.eof, l.2.idle)))

/-- A compress session whose wrapper is closed a second time. -/
def doubleClose : List (Call storedEngine) :=
  [Call.Compress { data := [], broken := false } 0, Call.Close 0, Call.Close 0]

/-- A decompress session whose wrapper is read again after io.EOF. -/
def readAfterEOF : List (Call storedEngine) :=
  [Call.Decompress ([] : List Byte) 0, Call.Read 0 [0], Call.Read 0 [0]]

/-- Calls of callers that use only wrappers they hold: a full compress session, two
acquisitions that stay open, and a decompress session read to the end. -/
def ownedCalls : List (Call storedEngine) :=
  [Call.Compress { data := [], broken := false } 0, Call.Write 0 [1], Call.Close 0,
    Call.Compress { data := [], broken := false } 0,
    Call.Compress { data := [], broken := false } 0,
    Call.Decompress ([1] : List Byte) 0, Call.Read 0 [0], Call.Read 0 [0]]

/-- Four callers: two compress sessions and two decompress sessions, each with its own
payload. -/
def fourCallers : List (Session storedEngine) :=
  [Session.compress { data := [], broken := false } [[1, 2], [3]],
    Session.decompress ([4, 5, 6] : List Byte) [[0, 0], [0, 0], [0, 0]],
    Session.compress { data := [], broken := false } [[7]],
    Session.decompress ([8] : List Byte) [[0], [0]]]

/-- A schedule that lets the four callers take turns, call by call, until all sessions
are over. -/
def roundRobin : List (Nat × Nat) :=
  [(0, 0), (1, 0), (2, 0), (3, 0), (0, 1), (1, 1), (2, 1), (3, 1), (0, 0), (1, 0), (2, 0),
    (3, 0), (0, 0), (1, 0), (0, 0), (1, 0)]

/-- An empty in-memory sink. -/
def emptySink : Stored.Sink := { data := [], broken := false }

/-- An empty in-memory sink on which every write fails. -/
def brokenSink : Stored.Sink := { data := [], broken := true }

/-! ## The operations in closed form -/

section Lemmas

variable {E : Engine}

theorem Compress_fresh (c : State E) (w : E.Sink) (choice : Nat)
    (hnew : c.poolCompressor.New = some (poolCompressorNew E))
    (hidle : c.poolCompressor.idle = []) :
    Compress c w choice = Outcome.ok
      ({ heap := { writers := c.heap.writers ++
                    [{ Writer := E.WriterReset (E.NewWriter E.Discard) w,
                       pool := PoolRef.poolCompressor }]
                   readers := c.heap.readers }
         poolCompressor := c.poolCompressor
         poolDecompressor := c.poolDecompressor }, c.heap.writers.length, none) := by
  unfold Compress Pool.Get
  rw [hidle, hnew]
  simp [poolCompressorNew]

theorem Compress_reuse (c : State E) (w : E.Sink) (choice z : Nat) (obj : writer E)
    (hne : c.poolCompressor.idle ≠ [])
    (hget : c.poolCompressor.idle[choice % c.poolCompressor.idle.length]? =
      some (Iface.writer z))
    (hobj : c.heap.writers[z]? = some obj) :
    Compress c w choice = Outcome.ok
      ({ heap := { writers := c.heap.writers.set z
                      { obj with Writer := E.WriterReset obj.Writer w }
                   readers := c.heap.readers }
         poolCompressor :=
          { idle := c.poolCompressor.idle.eraseIdx (choice % c.poolCompressor.idle.length)
            New := c.poolCompressor.New }
         poolDecompressor := c.poolDecompressor }, z, none) := by
  unfold Compress Pool.Get
  cases hi : c.poolCompressor.idle with
  | nil => exact absurd hi hne
  | cons x xs =>
    rw [hi] at hget
    simp only [hget, hobj]

theorem Decompress_fresh (c : State E) (r : E.Source) (choice : Nat)
    (hnew : c.poolDecompressor.New = none)
    (hidle : c.poolDecompressor.idle = []) :
    Decompress c r choice = Outcome.ok
      ({ heap := { writers := c.heap.writers
                   readers := c.heap.readers ++
                    [{ Reader := E.NewReader r (64 <<< 10),
                       pool := PoolRef.poolDecompressor }] }
         poolCompressor := c.poolCompressor
         poolDecompressor := c.poolDecompressor }, c.heap.readers.length, none) := by
  unfold Decompress Pool.Get
  rw [hidle, hnew]

theorem Decompress_reuse (c : State E) (r : E.Source) (choice z : Nat) (obj : reader E)
    (hne : c.poolDecompressor.idle ≠ [])
    (hget : c.poolDecompressor.idle[choice % c.poolDecompressor.idle.length]? =
      some (Iface.reader z))
    (hobj : c.heap.readers[z]? = some obj) :
    Decompress c r choice = Outcome.ok
      ({ heap := { writers := c.heap.writers
                   readers := c.heap.readers.set z
                      { obj with Reader := E.ReaderReset obj.Reader r } }
         poolCompressor := c.poolCompressor
         poolDecompressor :=
          { idle := c.poolDecompressor.idle.eraseIdx (choice % c.poolDecompressor.idle.length)
            New := c.poolDecompressor.New } },
        z, none) := by
  unfold Decompress Pool.Get
  cases hi : c.poolDecompressor.idle with
  | nil => exact absurd hi hne
  | cons x xs =>
    rw [hi] at hget
    simp only [hget, hobj]

/-- In a pool that is not empty, the instance Get selects is one of the idle ones. -/
theorem idle_choice {α : Type} (l : List α) (hne : l ≠ []) (choice : Nat) :
    ∃ x, l[choice % l.length]? = some x ∧ x ∈ l := by
  have hpos : 0 < l.length := List.length_pos.mpr hne
  have hlt : choice % l.length < l.length := Nat.mod_lt _ hpos
  exact ⟨l[choice % l.length], List.getElem?_eq_getElem hlt, List.getElem_mem hlt⟩

theorem Inv_init (table : List String) : Inv (init E table).1 where
  newC := rfl
  newD := rfl
  wpool := by intro obj h; simp [init] at h
  rpool := by intro obj h; simp [init] at h
  idleC := by intro x h; simp [init] at h
  idleD := by intro x h; simp [init] at h

/-- Under the invariant Compress does not panic: it returns a wrapper of the compressor
pool whose engine was reset to the sink, constructed when the pool is empty and taken
from the idle ones otherwise. -/
theorem Compress_ok (c : State E) (hI : Inv c) (w : E.Sink) (choice : Nat) :
    ∃ c1 z w0, Compress c w choice = Outcome.ok (c1, z, none) ∧ Inv c1 ∧
      c1.heap.writers[z]? = some { Writer := E.WriterReset w0 w, pool := PoolRef.poolCompressor } ∧
      c1.heap.readers = c.heap.readers ∧ c1.poolDecompressor = c.poolDecompressor ∧
      (c.poolCompressor.idle = [] → z = c.heap.writers.length ∧
        w0 = E.NewWriter E.Discard ∧
        c1.heap.writers.length = c.heap.writers.length + 1 ∧ c1.poolCompressor.idle = []) ∧
      (c.poolCompressor.idle ≠ [] → Iface.writer z ∈ c.poolCompressor.idle ∧
        c1.heap.writers.length = c.heap.writers.length ∧
        c1.poolCompressor.idle =
          c.poolCompressor.idle.eraseIdx (choice % c.poolCompressor.idle.length) ∧
        c.poolCompressor.idle[choice % c.poolCompressor.idle.length]? =
          some (Iface.writer z)) := by
  by_cases hidle : c.poolCompressor.idle = []
  · refine ⟨_, _, E.NewWriter E.Discard, Compress_fresh c w choice hI.newC hidle, ?_, ?_,
      rfl, rfl, ?_, fun h => absurd hidle h⟩
    · refine ⟨hI.newC, hI.newD, ?_, hI.rpool, ?_, hI.idleD⟩
      · intro obj hobj
        rcases List.mem_append.mp hobj with h | h
        · exact hI.wpool obj h
        · rw [List.mem_singleton.mp h]
      · intro x hx
        rw [hidle] at hx
        cases hx
    · exact List.getElem?_concat_length _ _
    · intro _
      exact ⟨rfl, rfl, by simp, hidle⟩
  · obtain ⟨x, hget, hmem⟩ := idle_choice c.poolCompressor.idle hidle choice
    obtain ⟨z, rfl, hz⟩ := hI.idleC x hmem
    have hobj : c.heap.writers[z]? = some c.heap.writers[z] := List.getElem?_eq_getElem hz
    have hp : (c.heap.writers[z]).pool = PoolRef.poolCompressor :=
      hI.wpool _ (List.getElem_mem hz)
    refine ⟨_, z, (c.heap.writers[z]).Writer, Compress_reuse c w choice z _ hidle hget hobj,
      ?_, ?_, rfl, rfl, fun h => absurd h hidle, ?_⟩
    · refine ⟨hI.newC, hI.newD, ?_, hI.rpool, ?_, hI.idleD⟩
      · intro obj hobj
        rcases List.mem_or_eq_of_mem_set hobj with h | h
        · exact hI.wpool obj h
        · rw [h]; exact hp
      · intro x hx
        obtain ⟨a, ha, hlt⟩ := hI.idleC x (List.mem_of_mem_eraseIdx hx)
        exact ⟨a, ha, by simpa using hlt⟩
    · simp only [List.getElem?_set_self hz, hp]
    · intro _
      exact ⟨hmem, by simp, rfl, hget⟩

/-- Under the invariant Decompress does not panic: it returns a wrapper of the
decompressor pool bound to the source, constructed with NewReader when the pool is
empty and taken from the idle ones and Reset otherwise. -/
theorem Decompress_ok (c : State E) (hI : Inv c) (r : E.Source) (choice : Nat) :
    ∃ c1 z rd, Decompress c r choice = Outcome.ok (c1, z, none) ∧ Inv c1 ∧
      c1.heap.readers[z]? = some { Reader := rd, pool := PoolRef.poolDecompressor } ∧
      c1.heap.writers = c.heap.writers ∧ c1.poolCompressor = c.poolCompressor ∧
      (c.poolDecompressor.idle = [] → z = c.heap.readers.length ∧
        rd = E.NewReader r (64 <<< 10) ∧
        c1.heap.readers.length = c.heap.readers.length + 1 ∧ c1.poolDecompressor.idle = []) ∧
      (c.poolDecompressor.idle ≠ [] → Iface.reader z ∈ c.poolDecompressor.idle ∧
        (∃ obj, c.heap.readers[z]? = some obj ∧ rd = E.ReaderReset obj.Reader r) ∧
        c1.heap.readers.length = c.heap.readers.length ∧
        c1.poolDecompressor.idle =
          c.poolDecompressor.idle.eraseIdx (choice % c.poolDecompressor.idle.length) ∧
        c.poolDecompressor.idle[choice % c.poolDecompressor.idle.length]? =
          some (Iface.reader z)) := by
  by_cases hidle : c.poolDecompressor.idle = []
  · refine ⟨_, _, E.NewReader r (64 <<< 10), Decompress_fresh c r choice hI.newD hidle, ?_, ?_,
      rfl, rfl, ?_, fun h => absurd hidle h⟩
    · refine ⟨hI.newC, hI.newD, hI.wpool, ?_, hI.idleC, ?_⟩
      · intro obj hobj
        rcases List.mem_append.mp hobj with h | h
        · exact hI.rpool obj h
        · rw [List.mem_singleton.mp h]
      · intro x hx
        rw [hidle] at hx
        cases hx
    · exact List.getElem?_concat_length _ _
    · intro _
      exact ⟨rfl, rfl, by simp, hidle⟩
  · obtain ⟨x, hget, hmem⟩ := idle_choice c.poolDecompressor.idle hidle choice
    obtain ⟨z, rfl, hz⟩ := hI.idleD x hmem
    have hobj : c.heap.readers[z]? = some c.heap.readers[z] := List.getElem?_eq_getElem hz
    have hp : (c.heap.readers[z]).pool = PoolRef.poolDecompressor :=
      hI.rpool _ (List.getElem_mem hz)
    refine ⟨_, z, E.ReaderReset (c.heap.readers[z]).Reader r,
      Decompress_reuse c r choice z _ hidle hget hobj, ?_, ?_, rfl, rfl,
      fun h => absurd h hidle, ?_⟩
    · refine ⟨hI.newC, hI.newD, hI.wpool, ?_, hI.idleC, ?_⟩
      · intro obj hobj
        rcases List.mem_or_eq_of_mem_set hobj with h | h
        · exact hI.rpool obj h
        · rw [h]; exact hp
      · intro x hx
        obtain ⟨a, ha, hlt⟩ := hI.idleD x (List.mem_of_mem_eraseIdx hx)
        exact ⟨a, ha, by simpa using hlt⟩
    · simp only [List.getElem?_set_self hz, hp]
    · intro _
      exact ⟨hmem, ⟨_, hobj, rfl⟩, by simp, rfl, hget⟩

/-- Write forwards to the engine and touches neither pool. -/
theorem Write_ok (c : State E) (hI : Inv c) (z : Nat) (p : List Byte) (obj : writer E)
    (hobj : c.heap.writers[z]? = some obj) :
    ∃ c1, writer.Write c z p =
        some (c1, (E.WriterWrite obj.Writer p).2.1, (E.WriterWrite obj.Writer p).2.2) ∧
      Inv c1 ∧
      c1.heap.writers = c.heap.writers.set z
        { Writer := (E.WriterWrite obj.Writer p).1, pool := PoolRef.poolCompressor } ∧
      c1.heap.readers = c.heap.readers ∧
      c1.poolCompressor = c.poolCompressor ∧ c1.poolDecompressor = c.poolDecompressor := by
  have hp : obj.pool = PoolRef.poolCompressor := hI.wpool obj (List.getElem?_mem hobj)
  refine ⟨{ heap := { writers := c.heap.writers.set z
                        { Writer := (E.WriterWrite obj.Writer p).1, pool := obj.pool }
                      readers := c.heap.readers }
            poolCompressor := c.poolCompressor
            poolDecompressor := c.poolDecompressor }, ?_, ?_, ?_, rfl, rfl, rfl⟩
  · simp only [writer.Write, hobj]
  · refine ⟨hI.newC, hI.newD, ?_, hI.rpool, ?_, hI.idleD⟩
    · intro o ho
      rcases List.mem_or_eq_of_mem_set ho with h | h
      · exact hI.wpool o h
      · rw [h]; exact hp
    · intro x hx
      obtain ⟨a, ha, hlt⟩ := hI.idleC x hx
      exact ⟨a, ha, by simpa using hlt⟩
  · simp only [hp]

/-- Close forwards to the engine and puts the wrapper into the compressor pool. -/
theorem Close_ok (c : State E) (hI : Inv c) (z : Nat) (obj : writer E)
    (hobj : c.heap.writers[z]? = some obj) :
    ∃ c1, writer.Close c z = some (c1, (E.WriterClose obj.Writer).2) ∧ Inv c1 ∧
      c1.heap.writers = c.heap.writers.set z
        { Writer := (E.WriterClose obj.Writer).1, pool := PoolRef.poolCompressor } ∧
      c1.heap.readers = c.heap.readers ∧
      c1.poolCompressor.idle = Iface.writer z :: c.poolCompressor.idle ∧
      c1.poolDecompressor = c.poolDecompressor := by
  have hp : obj.pool = PoolRef.poolCompressor := hI.wpool obj (List.getElem?_mem hobj)
  have hz : z < c.heap.writers.length := (List.getElem?_eq_some.mp hobj).1
  refine ⟨{ heap := { writers := c.heap.writers.set z
                        { Writer := (E.WriterClose obj.Writer).1, pool := PoolRef.poolCompressor }
                      readers := c.heap.readers }
            poolCompressor := c.poolCompressor.Put (Iface.writer z)
            poolDecompressor := c.poolDecompressor }, ?_, ?_, rfl, rfl, rfl, rfl⟩
  · simp only [writer.Close, hobj, hp, State.put]
  · refine ⟨hI.newC, hI.newD, ?_, hI.rpool, ?_, hI.idleD⟩
    · intro o ho
      rcases List.mem_or_eq_of_mem_set ho with h | h
      · exact hI.wpool o h
      · rw [h]
    · intro x hx
      rcases List.mem_cons.mp hx with h | h
      · exact ⟨z, h, by simpa using hz⟩
      · obtain ⟨a, ha, hlt⟩ := hI.idleC x h
        exact ⟨a, ha, by simpa using hlt⟩

/-- Read forwards to the engine and puts the wrapper into the decompressor pool exactly
when the engine returned io.EOF. -/
theorem Read_ok (c : State E) (hI : Inv c) (z : Nat) (p : List Byte) (obj : reader E)
    (hobj : c.heap.readers[z]? = some obj) :
    ∃ c1, reader.Read c z p = some (c1, (E.ReaderRead obj.Reader p).2) ∧ Inv c1 ∧
      c1.heap.readers = c.heap.readers.set z
        { Reader := (E.ReaderRead obj.Reader p).1, pool := PoolRef.poolDecompressor } ∧
      c1.heap.writers = c.heap.writers ∧
      c1.poolCompressor = c.poolCompressor ∧
      c1.poolDecompressor.New = c.poolDecompressor.New ∧
      ((E.ReaderRead obj.Reader p).2.2.2 = io.EOF →
        c1.poolDecompressor.idle = Iface.reader z :: c.poolDecompressor.idle) ∧
      ((E.ReaderRead obj.Reader p).2.2.2 ≠ io.EOF →
        c1.poolDecompressor.idle = c.poolDecompressor.idle) := by
  have hp : obj.pool = PoolRef.poolDecompressor := hI.rpool obj (List.getElem?_mem hobj)
  have hz : z < c.heap.readers.length := (List.getElem?_eq_some.mp hobj).1
  have hset : ∀ o ∈ c.heap.readers.set z
      { Reader := (E.ReaderRead obj.Reader p).1, pool := PoolRef.poolDecompressor },
      o.pool = PoolRef.poolDecompressor := by
    intro o ho
    rcases List.mem_or_eq_of_mem_set ho with h | h
    · exact hI.rpool o h
    · rw [h]
  by_cases heof : (E.ReaderRead obj.Reader p).2.2.2 = io.EOF
  · refine ⟨{ heap := { writers := c.heap.writers
                        readers := c.heap.readers.set z
                          { Reader := (E.ReaderRead obj.Reader p).1,
                            pool := PoolRef.poolDecompressor } }
              poolCompressor := c.poolCompressor
              poolDecompressor := c.poolDecompressor.Put (Iface.reader z) },
      ?_, ?_, rfl, rfl, rfl, rfl, fun _ => rfl, fun h => absurd heof h⟩
    · simp only [reader.Read, hobj, heof, if_true, hp, State.put]
      rw [← heof]
    · refine ⟨hI.newC, hI.newD, hI.wpool, hset, hI.idleC, ?_⟩
      intro x hx
      rcases List.mem_cons.mp hx with h | h
      · exact ⟨z, h, by simpa using hz⟩
      · obtain ⟨a, ha, hlt⟩ := hI.idleD x h
        exact ⟨a, ha, by simpa using hlt⟩
  · refine ⟨{ heap := { writers := c.heap.writers
                        readers := c.heap.readers.set z
                          { Reader := (E.ReaderRead obj.Reader p).1,
                            pool := PoolRef.poolDecompressor } }
              poolCompressor := c.poolCompressor
              poolDecompressor := c.poolDecompressor },
      ?_, ?_, rfl, rfl, rfl, rfl, fun h => absurd h heof, fun _ => rfl⟩
    · simp only [reader.Read, hobj, heof, if_false, hp]
    · refine ⟨hI.newC, hI.newD, hI.wpool, hset, hI.idleC, ?_⟩
      intro x hx
      obtain ⟨a, ha, hlt⟩ := hI.idleD x hx
      exact ⟨a, ha, by simpa using hlt⟩

/-- Every call preserves the invariant. -/
theorem Inv_step (c c1 : State E) (k : Call E) (hI : Inv c) (h : step c k = some c1) :
    Inv c1 := by
  cases k with
  | Compress w choice =>
    obtain ⟨c2, z, w0, hc, hI2, _⟩ := Compress_ok c hI w choice
    simp only [step, hc, Option.some.injEq] at h
    exact h ▸ hI2
  | Decompress r choice =>
    obtain ⟨c2, z, rd, hc, hI2, _⟩ := Decompress_ok c hI r choice
    simp only [step, hc, Option.some.injEq] at h
    exact h ▸ hI2
  | Write z p =>
    cases hobj : c.heap.writers[z]? with
    | none => simp [step, writer.Write, hobj] at h
    | some obj =>
      obtain ⟨c2, hc, hI2, _⟩ := Write_ok c hI z p obj hobj
      simp only [step, hc, Option.map_some', Option.some.injEq] at h
      exact h ▸ hI2
  | Close z =>
    cases hobj : c.heap.writers[z]? with
    | none => simp [step, writer.Close, hobj] at h
    | some obj =>
      obtain ⟨c2, hc, hI2, _⟩ := Close_ok c hI z obj hobj
      simp only [step, hc, Option.map_some', Option.some.injEq] at h
      exact h ▸ hI2
  | Read z p =>
    cases hobj : c.heap.readers[z]? with
    | none => simp [step, reader.Read, hobj] at h
    | some obj =>
      obtain ⟨c2, hc, hI2, _⟩ := Read_ok c hI z p obj hobj
      simp only [step, hc, Option.map_some', Option.some.injEq] at h
      exact h ▸ hI2

theorem Inv_run (calls : List (Call E)) (c c1 : State E) (hI : Inv c)
    (h : run c calls = some c1) : Inv c1 := by
  induction calls generalizing c with
  | nil =>
    simp only [run, Option.some.injEq] at h
    exact h ▸ hI
  | cons k ks ih =>
    cases hs : step c k with
    | none => simp [run, hs] at h
    | some c2 =>
      simp only [run, hs] at h
      exact ih c2 (Inv_step c c2 k hI hs) h

/-- Every reachable state satisfies the invariant. -/
theorem Inv_of_Reachable (c : State E) (h : Reachable c) : Inv c := by
  obtain ⟨table, calls, hrun⟩ := h
  exact Inv_run calls _ c (Inv_init table) hrun

/-- The writes of a session forward to the engine one by one and touch neither pool. -/
theorem writeAll_ok (chunks : List (List Byte)) (c : State E) (hI : Inv c) (z : Nat)
    (obj : writer E) (hobj : c.heap.writers[z]? = some obj) :
    ∃ c2, writeAll z chunks c = some (c2, (Engine.writeAll E chunks obj.Writer).2) ∧
      Inv c2 ∧
      c2.heap.writers[z]? = some { Writer := (Engine.writeAll E chunks obj.Writer).1,
                                   pool := PoolRef.poolCompressor } ∧
      c2.heap.writers.length = c.heap.writers.length ∧
      c2.heap.readers = c.heap.readers ∧
      c2.poolCompressor = c.poolCompressor ∧ c2.poolDecompressor = c.poolDecompressor := by
  induction chunks generalizing c obj with
  | nil =>
    have hp : obj.pool = PoolRef.poolCompressor := hI.wpool obj (List.getElem?_mem hobj)
    refine ⟨c, rfl, hI, ?_, rfl, rfl, rfl, rfl⟩
    rw [hobj, ← hp]
    rfl
  | cons p ps ih =>
    have hz : z < c.heap.writers.length := (List.getElem?_eq_some.mp hobj).1
    obtain ⟨c1, hw, hI1, hws, hrs, hpc, hpd⟩ := Write_ok c hI z p obj hobj
    have hobj1 : c1.heap.writers[z]? =
        some { Writer := (E.WriterWrite obj.Writer p).1, pool := PoolRef.poolCompressor } := by
      rw [hws]; exact List.getElem?_set_self hz
    obtain ⟨c2, hwa, hI2, hget, hlen, hrs2, hpc2, hpd2⟩ := ih c1 hI1 _ hobj1
    refine ⟨c2, ?_, hI2, hget, ?_, hrs2.trans hrs, hpc2.trans hpc, hpd2.trans hpd⟩
    · simp only [writeAll, hw, hwa, Engine.writeAll]
    · rw [hlen, hws, List.length_set]

/-- A compress session under the invariant: it completes, its results are those of the
engine started from a Reset to the sink, and the wrapper ends up idle in the compressor
pool. -/
theorem compressSession_ok (c : State E) (hI : Inv c) (w : E.Sink)
    (chunks : List (List Byte)) (choice : Nat) :
    ∃ c3 log w0, compressSession c w chunks choice = some (c3, log) ∧ Inv c3 ∧
      log.engine = (Engine.session E (E.WriterReset w0 w) chunks).1 ∧
      log.writes = (Engine.session E (E.WriterReset w0 w) chunks).2.1 ∧
      log.closeErr = (Engine.session E (E.WriterReset w0 w) chunks).2.2 ∧
      log.constructed = c3.heap.writers.length ∧ log.idle = c3.poolCompressor.idle ∧
      c3.heap.readers = c.heap.readers ∧ c3.poolDecompressor = c.poolDecompressor ∧
      (c.poolCompressor.idle = [] → log.z = c.heap.writers.length ∧
        w0 = E.NewWriter E.Discard ∧
        c3.heap.writers.length = c.heap.writers.length + 1 ∧
        c3.poolCompressor.idle = [Iface.writer log.z]) ∧
      (c.poolCompressor.idle ≠ [] → Iface.writer log.z ∈ c.poolCompressor.idle ∧
        c3.heap.writers.length = c.heap.writers.length ∧
        c3.poolCompressor.idle = Iface.writer log.z ::
          c.poolCompressor.idle.eraseIdx (choice % c.poolCompressor.idle.length)) := by
  obtain ⟨c1, z, w0, hC, hI1, hobj1, hr1, hd1, hfresh, hreuse⟩ := Compress_ok c hI w choice
  obtain ⟨c2, hW, hI2, hobj2, hlen2, hr2, hpc2, hpd2⟩ := writeAll_ok chunks c1 hI1 z _ hobj1
  obtain ⟨c3, hCl, hI3, hws3, hr3, hidle3, hpd3⟩ := Close_ok c2 hI2 z _ hobj2
  have hz2 : z < c2.heap.writers.length := (List.getElem?_eq_some.mp hobj2).1
  have hobj3 : c3.heap.writers[z]? = some
      { Writer := (E.WriterClose (Engine.writeAll E chunks (E.WriterReset w0 w)).1).1,
        pool := PoolRef.poolCompressor } := by
    rw [hws3]; exact List.getElem?_set_self hz2
  have hlen3 : c3.heap.writers.length = c1.heap.writers.length := by
    rw [hws3, List.length_set, hlen2]
  refine ⟨c3, { z := z
                engine := (Engine.session E (E.WriterReset w0 w) chunks).1
                writes := (Engine.session E (E.WriterReset w0 w) chunks).2.1
                closeErr := (Engine.session E (E.WriterReset w0 w) chunks).2.2
                constructed := c3.heap.writers.length
                idle := c3.poolCompressor.idle }, w0, ?_, hI3, rfl, rfl, rfl, rfl, rfl,
    ?_, ?_, ?_, ?_⟩
  · simp only [compressSession, hC, hW, hCl, hobj3]
    rfl
  · rw [hr3, hr2, hr1]
  · rw [hpd3, hpd2, hd1]
  · intro h
    obtain ⟨hz, hw0, hl, hi⟩ := hfresh h
    refine ⟨hz, hw0, by rw [hlen3, hl], ?_⟩
    rw [hidle3, hpc2, hi]
  · intro h
    obtain ⟨hm, hl, hi, _⟩ := hreuse h
    refine ⟨hm, by rw [hlen3, hl], ?_⟩
    rw [hidle3, hpc2, hi]


/-- No call removes a wrapper from the heap. -/
theorem heap_mono_step (c c1 : State E) (k : Call E) (hI : Inv c) (h : step c k = some c1) :
    c.heap.writers.length ≤ c1.heap.writers.length ∧
      c.heap.readers.length ≤ c1.heap.readers.length := by
  cases k with
  | Compress w choice =>
    obtain ⟨c2, z, w0, hc, _, _, hr, _, hf, hu⟩ := Compress_ok c hI w choice
    simp only [step, hc, Option.some.injEq] at h
    subst h
    refine ⟨?_, by rw [hr]⟩
    by_cases hidle : c.poolCompressor.idle = []
    · rw [(hf hidle).2.2.1]; exact Nat.le_succ _
    · rw [(hu hidle).2.1]
  | Decompress r choice =>
    obtain ⟨c2, z, rd, hc, _, _, hw, _, hf, hu⟩ := Decompress_ok c hI r choice
    simp only [step, hc, Option.some.injEq] at h
    subst h
    refine ⟨by rw [hw], ?_⟩
    by_cases hidle : c.poolDecompressor.idle = []
    · rw [(hf hidle).2.2.1]; exact Nat.le_succ _
    · rw [(hu hidle).2.2.1]
  | Write z p =>
    cases hobj : c.heap.writers[z]? with
    | none => simp [step, writer.Write, hobj] at h
    | some obj =>
      obtain ⟨c2, hc, _, hw, hr, _⟩ := Write_ok c hI z p obj hobj
      simp only [step, hc, Option.map_some', Option.some.injEq] at h
      subst h
      exact ⟨by rw [hw, List.length_set], by rw [hr]⟩
  | Close z =>
    cases hobj : c.heap.writers[z]? with
    | none => simp [step, writer.Close, hobj] at h
    | some obj =>
      obtain ⟨c2, hc, _, hw, hr, _⟩ := Close_ok c hI z obj hobj
      simp only [step, hc, Option.map_some', Option.some.injEq] at h
      subst h
      exact ⟨by rw [hw, List.length_set], by rw [hr]⟩
  | Read z p =>
    cases hobj : c.heap.readers[z]? with
    | none => simp [step, reader.Read, hobj] at h
    | some obj =>
      obtain ⟨c2, hc, _, hr, hw, _⟩ := Read_ok c hI z p obj hobj
      simp only [step, hc, Option.map_some', Option.some.injEq] at h
      subst h
      exact ⟨by rw [hw], by rw [hr, List.length_set]⟩

theorem heap_mono_run (calls : List (Call E)) (c c1 : State E) (hI : Inv c)
    (h : run c calls = some c1) :
    c.heap.writers.length ≤ c1.heap.writers.length ∧
      c.heap.readers.length ≤ c1.heap.readers.length := by
  induction calls generalizing c with
  | nil =>
    simp only [run, Option.some.injEq] at h
    subst h
    exact ⟨le_refl _, le_refl _⟩
  | cons k ks ih =>
    cases hs : step c k with
    | none => simp [run, hs] at h
    | some c2 =>
      simp only [run, hs] at h
      have h1 := heap_mono_step c c2 k hI hs
      have h2 := ih c2 (Inv_step c c2 k hI hs) h
      exact ⟨le_trans h1.1 h2.1, le_trans h1.2 h2.2⟩

end Lemmas

/-! ## The claims -/

/-- C8 (name stability): in every codec state compressor.Name returns the exported
constant Name, which is the string "snappy", and init registers the codec under that
identifier whatever the table held before. -/
theorem C8_name_stable (E : Engine) (c : State E) (table : List String) :
    compressor.Name c = Name ∧ compressor.Name c = "snappy" ∧
      (init E table).2 = RegisterCompressor table "snappy" ∧
      (init E table).2.head? = some (compressor.Name c) :=
  ⟨rfl, rfl, rfl, rfl⟩

/-- C1 (Close recycles and propagates): let z be a wrapper some Compress returned in a
reachable state, and let any calls follow.  Then z is a writer whose back-reference is
the compressor pool, and Close on z returns exactly the error of the engine Close,
whatever it is, while the compressor pool gains z once and the decompressor pool is
left as it was. -/
theorem C1_close_puts_back (E : Engine) (c0 : State E) (h0 : Reachable c0) (w : E.Sink)
    (choice : Nat) (c1 : State E) (z : Nat) (e : error)
    (hC : Compress c0 w choice = Outcome.ok (c1, z, e))
    (calls : List (Call E)) (c : State E) (hrun : run c1 calls = some c) :
    ∃ obj c2, c.heap.writers[z]? = some obj ∧ obj.pool = PoolRef.poolCompressor ∧
      writer.Close c z = some (c2, (E.WriterClose obj.Writer).2) ∧
      c2.poolCompressor.idle = Iface.writer z :: c.poolCompressor.idle ∧
      c2.poolDecompressor.idle = c.poolDecompressor.idle := by
  have hI0 := Inv_of_Reachable c0 h0
  obtain ⟨c1', z', w0, hC', hI1, hobj1, _⟩ := Compress_ok c0 hI0 w choice
  rw [hC] at hC'
  injection hC' with hC'
  injection hC' with hc1 hC'
  injection hC' with hz _
  subst hc1 hz
  have hI := Inv_run calls c1 c hI1 hrun
  have hz1 : z < c1.heap.writers.length := (List.getElem?_eq_some.mp hobj1).1
  have hz : z < c.heap.writers.length :=
    lt_of_lt_of_le hz1 (heap_mono_run calls c1 c hI1 hrun).1
  have hobj : c.heap.writers[z]? = some c.heap.writers[z] := List.getElem?_eq_getElem hz
  obtain ⟨c2, hCl, _, _, _, hidle, hpd⟩ := Close_ok c hI z _ hobj
  exact ⟨_, c2, hobj, hI.wpool _ (List.getElem_mem hz), hCl, hidle, by rw [hpd]⟩

/-- C2 (Read recycles on io.EOF only): let z be a wrapper some Decompress returned in a
reachable state, and let any calls follow.  Then Read on z with any buffer returns the
buffer contents and the pair (n, err) of the engine Read; when err is io.EOF the
decompressor pool gains z, on nil or any other error it is unchanged; the compressor
pool is unchanged in every case. -/
theorem C2_read_recycles_on_eof (E : Engine) (c0 : State E) (h0 : Reachable c0)
    (r : E.Source) (choice : Nat) (c1 : State E) (z : Nat) (e : error)
    (hD : Decompress c0 r choice = Outcome.ok (c1, z, e))
    (calls : List (Call E)) (c : State E) (hrun : run c1 calls = some c) (p : List Byte) :
    ∃ obj c2, c.heap.readers[z]? = some obj ∧ obj.pool = PoolRef.poolDecompressor ∧
      reader.Read c z p = some (c2, (E.ReaderRead obj.Reader p).2) ∧
      ((E.ReaderRead obj.Reader p).2.2.2 = io.EOF →
        c2.poolDecompressor.idle = Iface.reader z :: c.poolDecompressor.idle) ∧
      ((E.ReaderRead obj.Reader p).2.2.2 ≠ io.EOF →
        c2.poolDecompressor.idle = c.poolDecompressor.idle) ∧
      c2.poolCompressor.idle = c.poolCompressor.idle := by
  have hI0 := Inv_of_Reachable c0 h0
  obtain ⟨c1', z', rd, hD', hI1, hobj1, _⟩ := Decompress_ok c0 hI0 r choice
  rw [hD] at hD'
  injection hD' with hD'
  injection hD' with hc1 hD'
  injection hD' with hz _
  subst hc1 hz
  have hI := Inv_run calls c1 c hI1 hrun
  have hz1 : z < c1.heap.readers.length := (List.getElem?_eq_some.mp hobj1).1
  have hz : z < c.heap.readers.length :=
    lt_of_lt_of_le hz1 (heap_mono_run calls c1 c hI1 hrun).2
  have hobj : c.heap.readers[z]? = some c.heap.readers[z] := List.getElem?_eq_getElem hz
  obtain ⟨c2, hR, _, _, _, hpc, _, heof, hne⟩ := Read_ok c hI z p _ hobj
  exact ⟨_, c2, hobj, hI.rpool _ (List.getElem_mem hz), hR, heof, hne, by rw [hpc]⟩

/-- Witness of C1: on the stored-mode engine a wrapper is acquired on a failing sink and
written to; Close then returns the error of the engine and puts the wrapper back. -/
theorem C1_close_puts_back_witness :
    Reachable storedInit ∧
    Compress storedInit brokenSink 0 =
      Outcome.ok (storedRun [Call.Compress brokenSink 0], 0, none) ∧
    run (storedRun [Call.Compress brokenSink 0]) [Call.Write 0 [1]] =
      some (storedRun [Call.Compress brokenSink 0, Call.Write 0 [1]]) ∧
    ∃ obj c2,
      (storedRun [Call.Compress brokenSink 0, Call.Write 0 [1]]).heap.writers[0]? = some obj ∧
      obj.pool = PoolRef.poolCompressor ∧
      writer.Close (storedRun [Call.Compress brokenSink 0, Call.Write 0 [1]]) 0 =
        some (c2, (storedEngine.WriterClose obj.Writer).2) ∧
      c2.poolCompressor.idle = Iface.writer 0 ::
        (storedRun [Call.Compress brokenSink 0, Call.Write 0 [1]]).poolCompressor.idle ∧
      c2.poolDecompressor.idle =
        (storedRun [Call.Compress brokenSink 0, Call.Write 0 [1]]).poolDecompressor.idle :=
  ⟨⟨[], [], rfl⟩, rfl, rfl,
    C1_close_puts_back storedEngine storedInit ⟨[], [], rfl⟩ brokenSink 0
      (storedRun [Call.Compress brokenSink 0]) 0 none rfl [Call.Write 0 [1]]
      (storedRun [Call.Compress brokenSink 0, Call.Write 0 [1]]) rfl⟩

/-- Witness of C2: on the stored-mode engine a reader is acquired on a one-byte source
and read once; the next Read is the one the claim describes. -/
theorem C2_read_recycles_on_eof_witness :
    Reachable storedInit ∧
    Decompress storedInit ([7] : List Byte) 0 =
      Outcome.ok (storedRun [Call.Decompress ([7] : List Byte) 0], 0, none) ∧
    run (storedRun [Call.Decompress ([7] : List Byte) 0]) [Call.Read 0 [0, 0]] =
      some (storedRun [Call.Decompress ([7] : List Byte) 0, Call.Read 0 [0, 0]]) ∧
    ∃ obj c2,
      (storedRun [Call.Decompress ([7] : List Byte) 0, Call.Read 0 [0, 0]]).heap.readers[0]? =
        some obj ∧
      obj.pool = PoolRef.poolDecompressor ∧
      reader.Read (storedRun [Call.Decompress ([7] : List Byte) 0, Call.Read 0 [0, 0]]) 0 [0, 0] =
        some (c2, (storedEngine.ReaderRead obj.Reader [0, 0]).2) ∧
      ((storedEngine.ReaderRead obj.Reader [0, 0]).2.2.2 = io.EOF →
        c2.poolDecompressor.idle = Iface.reader 0 ::
          (storedRun [Call.Decompress ([7] : List Byte) 0,
            Call.Read 0 [0, 0]]).poolDecompressor.idle) ∧
      ((storedEngine.ReaderRead obj.Reader [0, 0]).2.2.2 ≠ io.EOF →
        c2.poolDecompressor.idle =
          (storedRun [Call.Decompress ([7] : List Byte) 0,
            Call.Read 0 [0, 0]]).poolDecompressor.idle) ∧
      c2.poolCompressor.idle =
        (storedRun [Call.Decompress ([7] : List Byte) 0,
          Call.Read 0 [0, 0]]).poolCompressor.idle :=
  ⟨⟨[], [], rfl⟩, rfl, rfl,
    C2_read_recycles_on_eof storedEngine storedInit ⟨[], [], rfl⟩ ([7] : List Byte) 0
      (storedRun [Call.Decompress ([7] : List Byte) 0]) 0 none rfl [Call.Read 0 [0, 0]]
      (storedRun [Call.Decompress ([7] : List Byte) 0, Call.Read 0 [0, 0]]) rfl [0, 0]⟩

/-- C7 (acquire never fails): in every reachable state the compressor pool holds only
writers that point back to the compressor pool and the decompressor pool only readers
that point back to the decompressor pool; hence for every sink Compress does not panic
and returns, with a nil error, an allocated writer whose engine was Reset to that sink,
and for every source Decompress returns, with a nil error, an allocated reader whose
engine was constructed on or Reset to that source; on an empty pool the wrapper is a
newly constructed one. -/
theorem C7_acquire_never_fails (E : Engine) (c : State E) (h : Reachable c) :
    (∀ x ∈ c.poolCompressor.idle, ∃ a obj, x = Iface.writer a ∧
      c.heap.writers[a]? = some obj ∧ obj.pool = PoolRef.poolCompressor) ∧
    (∀ x ∈ c.poolDecompressor.idle, ∃ a obj, x = Iface.reader a ∧
      c.heap.readers[a]? = some obj ∧ obj.pool = PoolRef.poolDecompressor) ∧
    (∀ (w : E.Sink) (choice : Nat), ∃ c1 z w0,
      Compress c w choice = Outcome.ok (c1, z, none) ∧
      c1.heap.writers[z]? =
        some { Writer := E.WriterReset w0 w, pool := PoolRef.poolCompressor } ∧
      (c.poolCompressor.idle = [] → z = c.heap.writers.length ∧
        w0 = E.NewWriter E.Discard ∧
        c1.heap.writers.length = c.heap.writers.length + 1)) ∧
    (∀ (r : E.Source) (choice : Nat), ∃ c1 z rd,
      Decompress c r choice = Outcome.ok (c1, z, none) ∧
      c1.heap.readers[z]? = some { Reader := rd, pool := PoolRef.poolDecompressor } ∧
      (rd = E.NewReader r (64 <<< 10) ∨ ∃ r0, rd = E.ReaderReset r0 r) ∧
      (c.poolDecompressor.idle = [] → z = c.heap.readers.length ∧
        rd = E.NewReader r (64 <<< 10) ∧
        c1.heap.readers.length = c.heap.readers.length + 1)) := by
  have hI := Inv_of_Reachable c h
  refine ⟨?_, ?_, ?_, ?_⟩
  · intro x hx
    obtain ⟨a, ha, hlt⟩ := hI.idleC x hx
    exact ⟨a, c.heap.writers[a], ha, List.getElem?_eq_getElem hlt,
      hI.wpool _ (List.getElem_mem hlt)⟩
  · intro x hx
    obtain ⟨a, ha, hlt⟩ := hI.idleD x hx
    exact ⟨a, c.heap.readers[a], ha, List.getElem?_eq_getElem hlt,
      hI.rpool _ (List.getElem_mem hlt)⟩
  · intro w choice
    obtain ⟨c1, z, w0, hC, _, hobj, _, _, hf, _⟩ := Compress_ok c hI w choice
    exact ⟨c1, z, w0, hC, hobj, fun hi => ⟨(hf hi).1, (hf hi).2.1, (hf hi).2.2.1⟩⟩
  · intro r choice
    obtain ⟨c1, z, rd, hD, _, hobj, _, _, hf, hu⟩ := Decompress_ok c hI r choice
    refine ⟨c1, z, rd, hD, hobj, ?_, fun hi => ⟨(hf hi).1, (hf hi).2.1, (hf hi).2.2.1⟩⟩
    by_cases hi : c.poolDecompressor.idle = []
    · exact Or.inl (hf hi).2.1
    · obtain ⟨obj, _, hrd⟩ := (hu hi).2.1
      exact Or.inr ⟨obj.Reader, hrd⟩

/-- Witness of C7: the stored-mode codec after a full compress session and a full
decompress session, so that both pools hold a wrapper. -/
theorem C7_acquire_never_fails_witness :
    Reachable (storedRun fullSessions) ∧
    (∀ x ∈ (storedRun fullSessions).poolCompressor.idle,
      ∃ a obj, x = Iface.writer a ∧
        (storedRun fullSessions).heap.writers[a]? = some obj ∧
        obj.pool = PoolRef.poolCompressor) ∧
    (storedRun fullSessions).poolCompressor.idle = [Iface.writer 0] ∧
    (storedRun fullSessions).poolDecompressor.idle = [Iface.reader 0] :=
  ⟨⟨[], fullSessions, rfl⟩,
    (C7_acquire_never_fails storedEngine (storedRun fullSessions)
      ⟨[], fullSessions, rfl⟩).1, rfl, rfl⟩

/-- Sequential compress sessions on a codec whose compressor pool holds the one writer
ever constructed: every session takes that writer and puts it back. -/
theorem compressSessions_steady {E : Engine}
    (sessions : List (E.Sink × List (List Byte) × Nat)) (c : State E) (hI : Inv c)
    (hlen : c.heap.writers.length = 1) (hidle : c.poolCompressor.idle = [Iface.writer 0]) :
    ∃ c1 logs, compressSessions sessions c = some (c1, logs) ∧
      logs.length = sessions.length ∧ Inv c1 ∧ c1.heap.writers.length = 1 ∧
      c1.poolCompressor.idle = [Iface.writer 0] ∧
      ∀ log ∈ logs, log.z = 0 ∧ log.constructed = 1 ∧ log.idle = [Iface.writer 0] := by
  induction sessions generalizing c with
  | nil => exact ⟨c, [], rfl, rfl, hI, hlen, hidle, by simp⟩
  | cons s rest ih =>
    obtain ⟨w, chunks, choice⟩ := s
    obtain ⟨c3, log, w0, hS, hI3, _, _, _, hcon, hlid, _, _, _, hu⟩ :=
      compressSession_ok c hI w chunks choice
    have hne : c.poolCompressor.idle ≠ [] := by rw [hidle]; simp
    obtain ⟨hm, hl3, hi3⟩ := hu hne
    have hz : log.z = 0 := by
      rw [hidle] at hm
      simpa using hm
    have hi3' : c3.poolCompressor.idle = [Iface.writer 0] := by
      rw [hi3, hidle, hz]
      simp [Nat.mod_one]
    have hl3' : c3.heap.writers.length = 1 := by rw [hl3, hlen]
    obtain ⟨c4, logs, hSS, hlen4, hI4, hl4, hi4, hall⟩ := ih c3 hI3 hl3' hi3'
    refine ⟨c4, log :: logs, ?_, by simp [hlen4], hI4, hl4, hi4, ?_⟩
    · simp only [compressSessions, hS, hSS]
    · intro l hl
      rcases List.mem_cons.mp hl with h | h
      · subst h
        exact ⟨hz, by rw [hcon, hl3'], by rw [hlid, hi3']⟩
      · exact hall l h

/-- C4 (pool reuse): from the codec as init leaves it, any N ≥ 1 sequential compress
sessions (Compress, any Writes, one Close each) all complete; the New constructor has
run exactly once after every session and at the end, every session works on the
wrapper at address 0 that the first session constructed, and after each Close the
compressor pool holds exactly that one idle wrapper. -/
theorem C4_pool_reuse (E : Engine) (table : List String)
    (sessions : List (E.Sink × List (List Byte) × Nat)) (hN : 1 ≤ sessions.length) :
    ∃ c logs, compressSessions sessions (init E table).1 = some (c, logs) ∧
      logs.length = sessions.length ∧ c.heap.writers.length = 1 ∧
      ∀ log ∈ logs, log.z = 0 ∧ log.constructed = 1 ∧ log.idle = [Iface.writer 0] := by
  cases sessions with
  | nil => simp at hN
  | cons s rest =>
    obtain ⟨w, chunks, choice⟩ := s
    obtain ⟨c3, log, w0, hS, hI3, _, _, _, hcon, hlid, _, _, hf, _⟩ :=
      compressSession_ok (init E table).1 (Inv_init table) w chunks choice
    obtain ⟨hz, _, hl3, hi3⟩ := hf rfl
    have hz0 : log.z = 0 := hz
    have hl3' : c3.heap.writers.length = 1 := hl3
    have hi3' : c3.poolCompressor.idle = [Iface.writer 0] := by rw [hi3, hz0]
    obtain ⟨c4, logs, hSS, hlen4, _, hl4, _, hall⟩ :=
      compressSessions_steady rest c3 hI3 hl3' hi3'
    refine ⟨c4, log :: logs, ?_, by simp [hlen4], hl4, ?_⟩
    · simp only [compressSessions, hS, hSS]
    · intro l hl
      rcases List.mem_cons.mp hl with h | h
      · subst h
        exact ⟨hz0, by rw [hcon, hl3'], by rw [hlid, hi3']⟩
      · exact hall l h

/-- Witness of C4: three sessions on the stored-mode engine, the second on a failing
sink. -/
theorem C4_pool_reuse_witness :
    1 ≤ [(emptySink, [[(1 : Byte), 2], [3]], 0), (brokenSink, [[4]], 3),
      (emptySink, [], 1)].length ∧
    ∃ c logs,
      compressSessions [(emptySink, [[(1 : Byte), 2], [3]], 0), (brokenSink, [[4]], 3),
        (emptySink, [], 1)] (init storedEngine []).1 = some (c, logs) ∧
      logs.length = [(emptySink, [[(1 : Byte), 2], [3]], 0), (brokenSink, [[4]], 3),
        (emptySink, [], 1)].length ∧ c.heap.writers.length = 1 ∧
      ∀ log ∈ logs, log.z = 0 ∧ log.constructed = 1 ∧ log.idle = [Iface.writer 0] :=
  ⟨by decide, C4_pool_reuse storedEngine []
    [(emptySink, [[(1 : Byte), 2], [3]], 0), (brokenSink, [[4]], 3), (emptySink, [], 1)]
    (by decide)⟩

/-- Reading through the wrapper until the first error produces what the engine reader
of the wrapper produces when read directly. -/
theorem readAll_engine {E : Engine} (bufLen z fuel : Nat) (c : State E) (hI : Inv c)
    (obj : reader E) (hobj : c.heap.readers[z]? = some obj) :
    (readAll bufLen z fuel c).map (fun r => r.2) =
      (Engine.readAll E bufLen fuel obj.Reader).map (fun r => r.2) := by
  induction fuel generalizing c obj with
  | zero => rfl
  | succ fuel ih =>
    have hz : z < c.heap.readers.length := (List.getElem?_eq_some.mp hobj).1
    obtain ⟨c1, hR, hI1, hrs, _⟩ := Read_ok c hI z (List.replicate bufLen 0) obj hobj
    have hobj1 : c1.heap.readers[z]? = some
        { Reader := (E.ReaderRead obj.Reader (List.replicate bufLen 0)).1,
          pool := PoolRef.poolDecompressor } := by
      rw [hrs]; exact List.getElem?_set_self hz
    have ih1 := ih c1 hI1 _ hobj1
    rcases hres : E.ReaderRead obj.Reader (List.replicate bufLen 0) with ⟨r1, p1, n, err⟩
    rw [hres] at hR ih1
    cases err with
    | some e => simp only [readAll, hR, Engine.readAll, hres, Option.map_some']
    | none =>
      simp only [readAll, hR, Engine.readAll, hres]
      simp only at ih1
      cases h1 : readAll bufLen z fuel c1 with
      | none =>
        rw [h1] at ih1
        cases h2 : Engine.readAll E bufLen fuel r1 with
        | none => rfl
        | some v => rw [h2] at ih1; simp at ih1
      | some u =>
        rw [h1] at ih1
        cases h2 : Engine.readAll E bufLen fuel r1 with
        | none => rw [h2] at ih1; simp at ih1
        | some v =>
          rw [h2] at ih1
          simp only [Option.map_some', Option.some.injEq] at ih1
          obtain ⟨c2, bs, e⟩ := u
          obtain ⟨r2, bs2, e2⟩ := v
          simp only [Prod.mk.injEq] at ih1
          simp only [Option.map_some', ih1.1, ih1.2]

/-- C5 (reuse leaves no residue): assume the engine Reset discards the state of the
writer.  Then in every reachable state, whatever earlier sessions left in the wrapper
that Compress takes from the pool, a session on a sink ends with the same engine state
(the bytes the sink received included), the same Write results and the same Close
error as the same session run from init, where the wrapper is a newly constructed one. -/
theorem C5_reuse_no_residue (E : Engine)
    (hreset : ∀ (s s' : E.Writer) (w : E.Sink), E.WriterReset s w = E.WriterReset s' w)
    (c : State E) (hc : Reachable c) (table : List String) (w : E.Sink)
    (chunks : List (List Byte)) (choice choice' : Nat) :
    ∃ c3 log c3' log', compressSession c w chunks choice = some (c3, log) ∧
      compressSession (init E table).1 w chunks choice' = some (c3', log') ∧
      log'.z = 0 ∧ log'.constructed = 1 ∧
      (c.poolCompressor.idle ≠ [] → Iface.writer log.z ∈ c.poolCompressor.idle ∧
        log.constructed = c.heap.writers.length) ∧
      log.engine = log'.engine ∧ E.Received log.engine = E.Received log'.engine ∧
      log.writes = log'.writes ∧ log.closeErr = log'.closeErr := by
  obtain ⟨c3, log, w0, hS, _, he, hw, hce, hcon, _, _, _, _, hu⟩ :=
    compressSession_ok c (Inv_of_Reachable c hc) w chunks choice
  obtain ⟨c3', log', w0', hS', _, he', hw', hce', hcon', _, _, _, hf', _⟩ :=
    compressSession_ok (init E table).1 (Inv_init table) w chunks choice'
  obtain ⟨hz', _, hl', _⟩ := hf' rfl
  have hr : E.WriterReset w0 w = E.WriterReset w0' w := hreset w0 w0' w
  have hee : log.engine = log'.engine := by rw [he, he', hr]
  refine ⟨c3, log, c3', log', hS, hS', hz', by rw [hcon', hl']; rfl, ?_, hee, by rw [hee],
    by rw [hw, hw', hr], by rw [hce, hce', hr]⟩
  intro hne
  exact ⟨(hu hne).1, by rw [hcon, (hu hne).2.1]⟩

/-- C3 (round trip): assume the engine Reset discards the state of a writer, the engine
Reset of a reader leaves it like a newly constructed one, and the engine alone
round-trips the chunks on the sink with the given read buffer and fuel.  Then in every
reachable state, whatever the pools hold and whichever wrappers they hand out, the
codec round-trips them as well: the compress session followed by Decompress on the
bytes the sink received and reads until end-of-stream yields the concatenated chunks
and io.EOF. -/
theorem C3_round_trip (E : Engine)
    (hW : ∀ (s s' : E.Writer) (w : E.Sink), E.WriterReset s w = E.WriterReset s' w)
    (hR : ∀ (r : E.Reader) (src : E.Source), E.ReaderReset r src = E.NewReader src (64 <<< 10))
    (c : State E) (hc : Reachable c) (w : E.Sink) (chunks : List (List Byte))
    (choiceC choiceD bufLen fuel : Nat)
    (hrt : Engine.roundTrip E w chunks bufLen fuel = some (chunks.flatten, GoError.EOF)) :
    roundTrip c w chunks choiceC choiceD bufLen fuel = some (chunks.flatten, GoError.EOF) := by
  obtain ⟨c3, log, w0, hS, hI3, he, _⟩ :=
    compressSession_ok c (Inv_of_Reachable c hc) w chunks choiceC
  obtain ⟨c4, z, rd, hD, hI4, hobj, _, _, hf, hu⟩ :=
    Decompress_ok c3 hI3 (E.BytesReader (E.Received log.engine)) choiceD
  have hrd : rd = E.NewReader (E.BytesReader (E.Received log.engine)) (64 <<< 10) := by
    by_cases hi : c3.poolDecompressor.idle = []
    · exact (hf hi).2.1
    · obtain ⟨obj, _, h⟩ := (hu hi).2.1
      rw [h, hR]
  have hsim := readAll_engine bufLen z fuel c4 hI4 _ hobj
  have he0 : log.engine =
      (Engine.session E (E.WriterReset (E.NewWriter E.Discard) w) chunks).1 := by
    rw [he, hW w0 (E.NewWriter E.Discard) w]
  simp only [roundTrip, hS, hD, hsim]
  rw [hrd, he0]
  exact hrt

/-- Witness of C5: on the stored-mode engine the pooled wrapper comes from a session
whose Close failed and left bytes in the buffer of the engine. -/
theorem C5_reuse_no_residue_witness :
    (∀ (s s1 : storedEngine.Writer) (w : storedEngine.Sink),
      storedEngine.WriterReset s w = storedEngine.WriterReset s1 w) ∧
    Reachable (storedRun failedSession) ∧
    (storedRun failedSession).poolCompressor.idle = [Iface.writer 0] ∧
    (storedRun failedSession).heap.writers.map (fun o => o.Writer) =
      [{ sink := brokenSink, ibuf := [9, 9], errState := some (GoError.other 1) }] ∧
    ∃ c3 log c3' log',
      compressSession (storedRun failedSession) emptySink [[1, 2], [3]] 0 = some (c3, log) ∧
      compressSession (init storedEngine []).1 emptySink [[1, 2], [3]] 0 = some (c3', log') ∧
      log'.z = 0 ∧ log'.constructed = 1 ∧
      ((storedRun failedSession).poolCompressor.idle ≠ [] →
        Iface.writer log.z ∈ (storedRun failedSession).poolCompressor.idle ∧
        log.constructed = (storedRun failedSession).heap.writers.length) ∧
      log.engine = log'.engine ∧
      storedEngine.Received log.engine = storedEngine.Received log'.engine ∧
      log.writes = log'.writes ∧ log.closeErr = log'.closeErr :=
  ⟨fun _ _ _ => rfl, ⟨[], failedSession, rfl⟩, rfl, rfl,
    C5_reuse_no_residue storedEngine (fun _ _ _ => rfl) (storedRun failedSession)
      ⟨[], failedSession, rfl⟩ [] emptySink [[1, 2], [3]] 0 0⟩

/-- Witness of C3: on the stored-mode engine, in a state where both pools hold a used
wrapper, three chunks (one of them empty) are round-tripped with a two-byte buffer. -/
theorem C3_round_trip_witness :
    (∀ (s s1 : storedEngine.Writer) (w : storedEngine.Sink),
      storedEngine.WriterReset s w = storedEngine.WriterReset s1 w) ∧
    (∀ (r : storedEngine.Reader) (src : storedEngine.Source),
      storedEngine.ReaderReset r src = storedEngine.NewReader src (64 <<< 10)) ∧
    Reachable (storedRun fullSessions) ∧
    Engine.roundTrip storedEngine emptySink [[1, 2], [], [3]] 2 4 =
      some ([[1, 2], [], [3]].flatten, GoError.EOF) ∧
    roundTrip (storedRun fullSessions) emptySink [[1, 2], [], [3]] 0 0 2 4 =
      some ([[1, 2], [], [3]].flatten, GoError.EOF) :=
  ⟨fun _ _ _ => rfl, fun _ _ => rfl, ⟨[], fullSessions, rfl⟩, rfl,
    C3_round_trip storedEngine (fun _ _ _ => rfl) (fun _ _ => rfl) (storedRun fullSessions)
      ⟨[], fullSessions, rfl⟩ emptySink [[1, 2], [], [3]] 0 0 2 4 rfl⟩

/-- In a list without duplicates the element at an index is gone once that index is
erased. -/
theorem not_mem_eraseIdx_of_nodup {α : Type} (l : List α) (i : Nat) (x : α)
    (hnd : l.Nodup) (hget : l[i]? = some x) : x ∉ l.eraseIdx i := by
  induction l generalizing i with
  | nil => simp at hget
  | cons a l ih =>
    cases i with
    | zero =>
      simp only [List.getElem?_cons_zero, Option.some.injEq] at hget
      subst hget
      simpa using (List.nodup_cons.mp hnd).1
    | succ i =>
      simp only [List.getElem?_cons_succ] at hget
      have hx : x ∈ l := List.getElem?_mem hget
      have hne : x ≠ a := by
        intro h
        subst h
        exact (List.nodup_cons.mp hnd).1 hx
      simp only [List.eraseIdx_cons_succ, List.mem_cons, not_or]
      exact ⟨hne, ih i (List.nodup_cons.mp hnd).2 hget⟩

theorem Owned_init {E : Engine} (table : List String) : Owned (init E table).1 [] where
  inv := Inv_init table
  nodupC := List.nodup_nil
  nodupD := List.nodup_nil
  nodupH := List.nodup_nil
  disjC := by intro x h; cases h
  disjD := by intro x h; cases h
  validW := by intro a h; cases h
  validR := by intro a h; cases h

/-- Compress hands out a wrapper no caller holds, and ownership stays exclusive. -/
theorem Owned_Compress {E : Engine} (c : State E) (held : List Iface) (hO : Owned c held)
    (w : E.Sink) (choice : Nat) :
    ∃ c1 z, Compress c w choice = Outcome.ok (c1, z, none) ∧ Iface.writer z ∉ held ∧
      Owned c1 (Iface.writer z :: held) := by
  obtain ⟨c1, z, w0, hC, hI1, hobj1, hr, hd, hf, hu⟩ := Compress_ok c hO.inv w choice
  have hz1 : z < c1.heap.writers.length := (List.getElem?_eq_some.mp hobj1).1
  have hnotD : Iface.writer z ∉ c1.poolDecompressor.idle := by
    intro h
    obtain ⟨a, ha, _⟩ := hI1.idleD _ h
    cases ha
  by_cases hidle : c.poolCompressor.idle = []
  · obtain ⟨hz, _, hl, hi⟩ := hf hidle
    have hnh : Iface.writer z ∉ held := by
      intro h
      have := hO.validW z h
      omega
    refine ⟨c1, z, hC, hnh, hI1, by rw [hi]; exact List.nodup_nil, by rw [hd]; exact hO.nodupD,
      List.nodup_cons.mpr ⟨hnh, hO.nodupH⟩, ?_, ?_, ?_, ?_⟩
    · intro x _
      rw [hi]
      simp
    · intro x hx
      rcases List.mem_cons.mp hx with h | h
      · rw [h]; exact hnotD
      · rw [hd]; exact hO.disjD x h
    · intro a ha
      rcases List.mem_cons.mp ha with h | h
      · injection h with h
        rw [h]; exact hz1
      · have := hO.validW a h
        omega
    · intro a ha
      rcases List.mem_cons.mp ha with h | h
      · cases h
      · rw [hr]; exact hO.validR a h
  · obtain ⟨hm, hl, hi, hget⟩ := hu hidle
    have hnh : Iface.writer z ∉ held := fun h => hO.disjC _ h hm
    refine ⟨c1, z, hC, hnh, hI1, by rw [hi]; exact List.Nodup.eraseIdx _ hO.nodupC,
      by rw [hd]; exact hO.nodupD, List.nodup_cons.mpr ⟨hnh, hO.nodupH⟩, ?_, ?_, ?_, ?_⟩
    · intro x hx
      rw [hi]
      rcases List.mem_cons.mp hx with h | h
      · rw [h]; exact not_mem_eraseIdx_of_nodup _ _ _ hO.nodupC hget
      · exact fun hmem => hO.disjC x h (List.mem_of_mem_eraseIdx hmem)
    · intro x hx
      rcases List.mem_cons.mp hx with h | h
      · rw [h]; exact hnotD
      · rw [hd]; exact hO.disjD x h
    · intro a ha
      rcases List.mem_cons.mp ha with h | h
      · injection h with h
        rw [h]; exact hz1
      · rw [hl]; exact hO.validW a h
    · intro a ha
      rcases List.mem_cons.mp ha with h | h
      · cases h
      · rw [hr]; exact hO.validR a h

/-- Decompress hands out a wrapper no caller holds, and ownership stays exclusive. -/
theorem Owned_Decompress {E : Engine} (c : State E) (held : List Iface) (hO : Owned c held)
    (r : E.Source) (choice : Nat) :
    ∃ c1 z, Decompress c r choice = Outcome.ok (c1, z, none) ∧ Iface.reader z ∉ held ∧
      Owned c1 (Iface.reader z :: held) := by
  obtain ⟨c1, z, rd, hD, hI1, hobj1, hw, hpc, hf, hu⟩ := Decompress_ok c hO.inv r choice
  have hz1 : z < c1.heap.readers.length := (List.getElem?_eq_some.mp hobj1).1
  have hnotC : Iface.reader z ∉ c1.poolCompressor.idle := by
    intro h
    obtain ⟨a, ha, _⟩ := hI1.idleC _ h
    cases ha
  by_cases hidle : c.poolDecompressor.idle = []
  · obtain ⟨hz, _, hl, hi⟩ := hf hidle
    have hnh : Iface.reader z ∉ held := by
      intro h
      have := hO.validR z h
      omega
    refine ⟨c1, z, hD, hnh, hI1, by rw [hpc]; exact hO.nodupC, by rw [hi]; exact List.nodup_nil,
      List.nodup_cons.mpr ⟨hnh, hO.nodupH⟩, ?_, ?_, ?_, ?_⟩
    · intro x hx
      rcases List.mem_cons.mp hx with h | h
      · rw [h]; exact hnotC
      · rw [hpc]; exact hO.disjC x h
    · intro x _
      rw [hi]
      simp
    · intro a ha
      rcases List.mem_cons.mp ha with h | h
      · cases h
      · rw [hw]; exact hO.validW a h
    · intro a ha
      rcases List.mem_cons.mp ha with h | h
      · injection h with h
        rw [h]; exact hz1
      · have := hO.validR a h
        omega
  · obtain ⟨hm, _, hl, hi, hget⟩ := hu hidle
    have hnh : Iface.reader z ∉ held := fun h => hO.disjD _ h hm
    refine ⟨c1, z, hD, hnh, hI1, by rw [hpc]; exact hO.nodupC,
      by rw [hi]; exact List.Nodup.eraseIdx _ hO.nodupD,
      List.nodup_cons.mpr ⟨hnh, hO.nodupH⟩, ?_, ?_, ?_, ?_⟩
    · intro x hx
      rcases List.mem_cons.mp hx with h | h
      · rw [h]; exact hnotC
      · rw [hpc]; exact hO.disjC x h
    · intro x hx
      rw [hi]
      rcases List.mem_cons.mp hx with h | h
      · rw [h]; exact not_mem_eraseIdx_of_nodup _ _ _ hO.nodupD hget
      · exact fun hmem => hO.disjD x h (List.mem_of_mem_eraseIdx hmem)
    · intro a ha
      rcases List.mem_cons.mp ha with h | h
      · cases h
      · rw [hw]; exact hO.validW a h
    · intro a ha
      rcases List.mem_cons.mp ha with h | h
      · injection h with h
        rw [h]; exact hz1
      · rw [hl]; exact hO.validR a h

/-- A call made on wrappers the caller holds keeps ownership exclusive. -/
theorem Owned_step {E : Engine} (c c1 : State E) (held held1 : List Iface) (k : Call E)
    (hO : Owned c held) (h : stepOwned c held k = some (c1, held1)) : Owned c1 held1 := by
  cases k with
  | Compress w choice =>
    obtain ⟨c2, z, hC, _, hO2⟩ := Owned_Compress c held hO w choice
    simp only [stepOwned, hC, Option.some.injEq, Prod.mk.injEq] at h
    obtain ⟨h1, h2⟩ := h
    subst h1 h2
    exact hO2
  | Decompress r choice =>
    obtain ⟨c2, z, hD, _, hO2⟩ := Owned_Decompress c held hO r choice
    simp only [stepOwned, hD, Option.some.injEq, Prod.mk.injEq] at h
    obtain ⟨h1, h2⟩ := h
    subst h1 h2
    exact hO2
  | Write z p =>
    by_cases hh : Iface.writer z ∈ held
    · have hz := hO.validW z hh
      have hobj : c.heap.writers[z]? = some c.heap.writers[z] := List.getElem?_eq_getElem hz
      obtain ⟨c2, hW, hI2, hws, hrs, hpc, hpd⟩ := Write_ok c hO.inv z p _ hobj
      simp only [stepOwned, hh, if_true, hW, Option.map_some', Option.some.injEq,
        Prod.mk.injEq] at h
      obtain ⟨h1, h2⟩ := h
      subst h1 h2
      exact ⟨hI2, by rw [hpc]; exact hO.nodupC, by rw [hpd]; exact hO.nodupD, hO.nodupH,
        by rw [hpc]; exact hO.disjC, by rw [hpd]; exact hO.disjD,
        by rw [hws, List.length_set]; exact hO.validW, by rw [hrs]; exact hO.validR⟩
    · simp [stepOwned, hh] at h
  | Close z =>
    by_cases hh : Iface.writer z ∈ held
    · have hz := hO.validW z hh
      have hobj : c.heap.writers[z]? = some c.heap.writers[z] := List.getElem?_eq_getElem hz
      obtain ⟨c2, hCl, hI2, hws, hrs, hpc, hpd⟩ := Close_ok c hO.inv z _ hobj
      simp only [stepOwned, hh, if_true, hCl, Option.map_some', Option.some.injEq,
        Prod.mk.injEq] at h
      obtain ⟨h1, h2⟩ := h
      subst h1 h2
      refine ⟨hI2, ?_, by rw [hpd]; exact hO.nodupD, hO.nodupH.erase _, ?_, ?_, ?_, ?_⟩
      · rw [hpc]
        exact List.nodup_cons.mpr ⟨hO.disjC _ hh, hO.nodupC⟩
      · intro x hx
        rw [hpc]
        obtain ⟨hne, hmem⟩ := (List.Nodup.mem_erase_iff hO.nodupH).mp hx
        simp only [List.mem_cons, not_or]
        exact ⟨hne, hO.disjC x hmem⟩
      · intro x hx
        rw [hpd]
        exact hO.disjD x (List.mem_of_mem_erase hx)
      · intro a ha
        rw [hws, List.length_set]
        exact hO.validW a (List.mem_of_mem_erase ha)
      · intro a ha
        rw [hrs]
        exact hO.validR a (List.mem_of_mem_erase ha)
    · simp [stepOwned, hh] at h
  | Read z p =>
    by_cases hh : Iface.reader z ∈ held
    · have hz := hO.validR z hh
      have hobj : c.heap.readers[z]? = some c.heap.readers[z] := List.getElem?_eq_getElem hz
      obtain ⟨c2, hR, hI2, hrs, hws, hpc, _, heof, hne⟩ := Read_ok c hO.inv z p _ hobj
      simp only [stepOwned, hh, if_true, hR, Option.map_some', Option.some.injEq,
        Prod.mk.injEq] at h
      obtain ⟨h1, h2⟩ := h
      subst h1
      by_cases he : (E.ReaderRead (c.heap.readers[z]).Reader p).2.2.2 = io.EOF
      · rw [if_pos he] at h2
        subst h2
        refine ⟨hI2, by rw [hpc]; exact hO.nodupC, ?_, hO.nodupH.erase _, ?_, ?_, ?_, ?_⟩
        · rw [heof he]
          exact List.nodup_cons.mpr ⟨hO.disjD _ hh, hO.nodupD⟩
        · intro x hx
          rw [hpc]
          exact hO.disjC x (List.mem_of_mem_erase hx)
        · intro x hx
          rw [heof he]
          obtain ⟨hne1, hmem⟩ := (List.Nodup.mem_erase_iff hO.nodupH).mp hx
          simp only [List.mem_cons, not_or]
          exact ⟨hne1, hO.disjD x hmem⟩
        · intro a ha
          rw [hws]
          exact hO.validW a (List.mem_of_mem_erase ha)
        · intro a ha
          rw [hrs, List.length_set]
          exact hO.validR a (List.mem_of_mem_erase ha)
      · rw [if_neg he] at h2
        subst h2
        exact ⟨hI2, by rw [hpc]; exact hO.nodupC, by rw [hne he]; exact hO.nodupD, hO.nodupH,
          by rw [hpc]; exact hO.disjC, by rw [hne he]; exact hO.disjD,
          by rw [hws]; exact hO.validW, by rw [hrs, List.length_set]; exact hO.validR⟩
    · simp [stepOwned, hh] at h

theorem Owned_run {E : Engine} (calls : List (Call E)) (c c1 : State E)
    (held held1 : List Iface) (hO : Owned c held)
    (h : runOwned c held calls = some (c1, held1)) : Owned c1 held1 := by
  induction calls generalizing c held with
  | nil =>
    simp only [runOwned, Option.some.injEq, Prod.mk.injEq] at h
    obtain ⟨h1, h2⟩ := h
    subst h1 h2
    exact hO
  | cons k ks ih =>
    cases hs : stepOwned c held k with
    | none => simp [runOwned, hs] at h
    | some r =>
      obtain ⟨c2, held2⟩ := r
      simp only [runOwned, hs] at h
      exact ih c2 held2 (Owned_step c c2 held held2 k hO hs) h

/-- A call of a caller that holds the wrapper has the effect step gives it. -/
theorem step_of_stepOwned {E : Engine} (c c1 : State E) (held held1 : List Iface)
    (k : Call E) (h : stepOwned c held k = some (c1, held1)) : step c k = some c1 := by
  cases k with
  | Compress w choice =>
    simp only [stepOwned] at h
    simp only [step]
    split at h
    · next c2 z e hC =>
      simp only [Option.some.injEq, Prod.mk.injEq] at h
      rw [hC, ← h.1]
    · cases h
  | Decompress r choice =>
    simp only [stepOwned] at h
    simp only [step]
    split at h
    · next c2 z e hD =>
      simp only [Option.some.injEq, Prod.mk.injEq] at h
      rw [hD, ← h.1]
    · cases h
  | Write z p =>
    simp only [stepOwned] at h
    simp only [step]
    split at h
    · cases hw : writer.Write c z p with
      | none => rw [hw] at h; cases h
      | some r =>
        rw [hw] at h
        simp only [Option.map_some', Option.some.injEq, Prod.mk.injEq] at h
        rw [Option.map_some', h.1]
    · cases h
  | Close z =>
    simp only [stepOwned] at h
    simp only [step]
    split at h
    · cases hw : writer.Close c z with
      | none => rw [hw] at h; cases h
      | some r =>
        rw [hw] at h
        simp only [Option.map_some', Option.some.injEq, Prod.mk.injEq] at h
        rw [Option.map_some', h.1]
    · cases h
  | Read z p =>
    simp only [stepOwned] at h
    simp only [step]
    split at h
    · cases hw : reader.Read c z p with
      | none => rw [hw] at h; cases h
      | some r =>
        rw [hw] at h
        simp only [Option.map_some', Option.some.injEq, Prod.mk.injEq] at h
        rw [Option.map_some', h.1]
    · cases h

theorem run_of_runOwned {E : Engine} (calls : List (Call E)) (c c1 : State E)
    (held held1 : List Iface) (h : runOwned c held calls = some (c1, held1)) :
    run c calls = some c1 := by
  induction calls generalizing c held with
  | nil =>
    simp only [runOwned, Option.some.injEq, Prod.mk.injEq] at h
    rw [run, h.1]
  | cons k ks ih =>
    cases hs : stepOwned c held k with
    | none => simp [runOwned, hs] at h
    | some r =>
      obtain ⟨c2, held2⟩ := r
      simp only [runOwned, hs] at h
      simp only [run, step_of_stepOwned c c2 held held2 k hs]
      exact ih c2 held2 h

/-- C10 as stated fails: on the stored-mode engine, Close called again on a closed
wrapper leaves the wrapper twice among the idle instances of the compressor pool, and
the next two acquisitions, with no release between them, both return it.  Read called
again after io.EOF leaves the reader twice in the decompressor pool. -/
theorem C10_exclusive_ownership_counterexample :
    Reachable (storedRun doubleClose) ∧
    (storedRun doubleClose).poolCompressor.idle = [Iface.writer 0, Iface.writer 0] ∧
    ¬ (storedRun doubleClose).poolCompressor.idle.Nodup ∧
    (∃ c1 c2, Compress (storedRun doubleClose) emptySink 0 = Outcome.ok (c1, 0, none) ∧
      Compress c1 emptySink 0 = Outcome.ok (c2, 0, none)) ∧
    Reachable (storedRun readAfterEOF) ∧
    (storedRun readAfterEOF).poolDecompressor.idle = [Iface.reader 0, Iface.reader 0] :=
  ⟨⟨[], doubleClose, rfl⟩, rfl,
    fun h => absurd (show (storedRun doubleClose).poolCompressor.idle.Nodup from h) (by decide),
    ⟨_, _, rfl, rfl⟩, ⟨[], readAfterEOF, rfl⟩, rfl⟩

/-- C10 amended (exclusive ownership for callers that use only wrappers they hold): in
every state reached from init by calls in which Write, Close and Read are made only on
a wrapper the caller holds, held from the acquisition that returned it until its Close
or until its Read returns io.EOF, no wrapper occurs more than once among the idle
instances of a pool and no held wrapper is idle in a pool; hence Compress and
Decompress never return a wrapper that a caller still holds. -/
theorem C10_exclusive_ownership_amended (E : Engine) (table : List String)
    (calls : List (Call E)) (c : State E) (held : List Iface)
    (hrun : runOwned (init E table).1 [] calls = some (c, held)) :
    run (init E table).1 calls = some c ∧
    c.poolCompressor.idle.Nodup ∧ c.poolDecompressor.idle.Nodup ∧
    (∀ x ∈ held, x ∉ c.poolCompressor.idle ∧ x ∉ c.poolDecompressor.idle) ∧
    (∀ (w : E.Sink) (choice : Nat), ∃ c1 z,
      Compress c w choice = Outcome.ok (c1, z, none) ∧ Iface.writer z ∉ held) ∧
    (∀ (r : E.Source) (choice : Nat), ∃ c1 z,
      Decompress c r choice = Outcome.ok (c1, z, none) ∧ Iface.reader z ∉ held) := by
  have hO := Owned_run calls _ c [] held (Owned_init table) hrun
  refine ⟨run_of_runOwned calls _ c [] held hrun, hO.nodupC, hO.nodupD,
    fun x hx => ⟨hO.disjC x hx, hO.disjD x hx⟩, ?_, ?_⟩
  · intro w choice
    obtain ⟨c1, z, hC, hn, _⟩ := Owned_Compress c held hO w choice
    exact ⟨c1, z, hC, hn⟩
  · intro r choice
    obtain ⟨c1, z, hD, hn, _⟩ := Owned_Decompress c held hO r choice
    exact ⟨c1, z, hD, hn⟩

/-- Witness of the amended C10: on the stored-mode engine, a closed session, two open
acquisitions and a decompress session read to the end leave two writers held. -/
theorem C10_exclusive_ownership_amended_witness :
    runOwned (init storedEngine []).1 [] ownedCalls =
      some (storedRun ownedCalls, [Iface.writer 1, Iface.writer 0]) ∧
    (storedRun ownedCalls).poolCompressor.idle = [] ∧
    (storedRun ownedCalls).poolDecompressor.idle = [Iface.reader 0] ∧
    run (init storedEngine []).1 ownedCalls = some (storedRun ownedCalls) ∧
    (storedRun ownedCalls).poolCompressor.idle.Nodup ∧
    (storedRun ownedCalls).poolDecompressor.idle.Nodup ∧
    (∀ x ∈ [Iface.writer 1, Iface.writer 0],
      x ∉ (storedRun ownedCalls).poolCompressor.idle ∧
      x ∉ (storedRun ownedCalls).poolDecompressor.idle) ∧
    (∀ (w : storedEngine.Sink) (choice : Nat), ∃ c1 z,
      Compress (storedRun ownedCalls) w choice = Outcome.ok (c1, z, none) ∧
      Iface.writer z ∉ [Iface.writer 1, Iface.writer 0]) ∧
    (∀ (r : storedEngine.Source) (choice : Nat), ∃ c1 z,
      Decompress (storedRun ownedCalls) r choice = Outcome.ok (c1, z, none) ∧
      Iface.reader z ∉ [Iface.writer 1, Iface.writer 0]) :=
  ⟨rfl, rfl, rfl,
    C10_exclusive_ownership_amended storedEngine [] ownedCalls (storedRun ownedCalls)
      [Iface.writer 1, Iface.writer 0] rfl⟩

/-- Reads until io.EOF on a wrapper taken from a pool that is empty meanwhile: the loop
sees io.EOF exactly when the engine reaches it within the buffers, the wrapper ends in
the state the engine ends in, and the pool stays empty until the Read that returns
io.EOF, which makes the wrapper its only idle instance. -/
theorem readUntilEOF_ok {E : Engine} (bufs : List (List Byte)) (c : State E) (hI : Inv c)
    (z : Nat) (obj : reader E) (hobj : c.heap.readers[z]? = some obj)
    (hidle : c.poolDecompressor.idle = []) :
    ∃ c2 ns, readUntilEOF z bufs c =
        some (c2, (Engine.readUntilEOF E bufs obj.Reader).2, ns) ∧ Inv c2 ∧
      c2.heap.readers[z]? = some { Reader := (Engine.readUntilEOF E bufs obj.Reader).1,
                                   pool := PoolRef.poolDecompressor } ∧
      c2.poolDecompressor.idle =
        (if (Engine.readUntilEOF E bufs obj.Reader).2 = true then [Iface.reader z] else []) ∧
      ∀ n ∈ ns, n ≤ 1 := by
  induction bufs generalizing c obj with
  | nil =>
    have hp : obj.pool = PoolRef.poolDecompressor := hI.rpool obj (List.getElem?_mem hobj)
    refine ⟨c, [], rfl, hI, ?_, by simpa [Engine.readUntilEOF] using hidle, by simp⟩
    rw [hobj, ← hp]
    rfl
  | cons p ps ih =>
    have hz : z < c.heap.readers.length := (List.getElem?_eq_some.mp hobj).1
    obtain ⟨c1, hR, hI1, hrs, _, _, _, heof, hne⟩ := Read_ok c hI z p obj hobj
    have hobj1 : c1.heap.readers[z]? = some
        { Reader := (E.ReaderRead obj.Reader p).1, pool := PoolRef.poolDecompressor } := by
      rw [hrs]; exact List.getElem?_set_self hz
    by_cases he : (E.ReaderRead obj.Reader p).2.2.2 = io.EOF
    · have hi1 : c1.poolDecompressor.idle = [Iface.reader z] := by rw [heof he, hidle]
      refine ⟨c1, [c1.poolDecompressor.idle.length], ?_, hI1, ?_, ?_, ?_⟩
      · simp only [readUntilEOF, hR, he, if_true, Engine.readUntilEOF]
      · simp only [Engine.readUntilEOF, he, if_true]
        exact hobj1
      · simp only [Engine.readUntilEOF, he, if_true]
        exact hi1
      · intro n hn
        rw [hi1] at hn
        simp at hn
        omega
    · have hi1 : c1.poolDecompressor.idle = [] := by rw [hne he, hidle]
      obtain ⟨c2, ns, hU, hI2, hobj2, hi2, hns⟩ := ih c1 hI1 _ hobj1 hi1
      refine ⟨c2, c1.poolDecompressor.idle.length :: ns, ?_, hI2, ?_, ?_, ?_⟩
      · simp only [readUntilEOF, hR, he, if_false, hU, Engine.readUntilEOF]
      · simp only [Engine.readUntilEOF, he, if_false]
        exact hobj2
      · simp only [Engine.readUntilEOF, he, if_false]
        exact hi2
      · intro n hn
        rcases List.mem_cons.mp hn with h | h
        · rw [h, hi1]; simp
        · exact hns n h

/-- A decompress session on a codec whose decompressor pool holds at most one idle
wrapper. -/
theorem decompressSession_ok {E : Engine} (c : State E) (hI : Inv c) (r : E.Source)
    (bufs : List (List Byte)) (choice : Nat) (hle : c.poolDecompressor.idle.length ≤ 1) :
    ∃ c2 log, decompressSession c r bufs choice = some (c2, log) ∧ Inv c2 ∧
      c2.poolDecompressor.idle = log.idle ∧
      SessionAgrees ((r, bufs, choice), log) ∧
      c2.heap.readers[log.z]? = some { Reader := log.last, pool := PoolRef.poolDecompressor } ∧
      (c.poolDecompressor.idle = [] → log.constructed = true ∧
        log.z = c.heap.readers.length ∧ log.bound = E.NewReader r (64 <<< 10)) ∧
      (∀ z0, c.poolDecompressor.idle = [Iface.reader z0] → log.constructed = false ∧
        log.z = z0 ∧
        ∃ obj, c.heap.readers[z0]? = some obj ∧ log.bound = E.ReaderReset obj.Reader r) := by
  obtain ⟨c1, z, rd, hD, hI1, hobj1, _, _, hf, hu⟩ := Decompress_ok c hI r choice
  have hi1 : c1.poolDecompressor.idle = [] := by
    by_cases hidle : c.poolDecompressor.idle = []
    · exact (hf hidle).2.2.2
    · rw [(hu hidle).2.2.2.1]
      cases hi : c.poolDecompressor.idle with
      | nil => exact absurd hi hidle
      | cons x xs =>
        rw [hi] at hle
        have hxs : xs = [] := List.length_eq_zero.mp (by simpa using hle)
        subst hxs
        simp [Nat.mod_one]
  obtain ⟨c2, ns, hU, hI2, hobj2, hi2, hns⟩ := readUntilEOF_ok bufs c1 hI1 z _ hobj1 hi1
  refine ⟨c2, { z := z
                constructed := decide (c.heap.readers.length < c1.heap.readers.length)
                bound := rd
                eof := (Engine.readUntilEOF E bufs rd).2
                last := (Engine.readUntilEOF E bufs rd).1
                idleSizes := c1.poolDecompressor.idle.length :: ns
                idle := c2.poolDecompressor.idle }, ?_, hI2, rfl, ⟨rfl, rfl, hi2, ?_⟩,
    hobj2, ?_, ?_⟩
  · simp only [decompressSession, hD, hobj1, hU, hobj2]
  · intro n hn
    rcases List.mem_cons.mp hn with h | h
    · rw [h, hi1]; simp
    · exact hns n h
  · intro hidle
    obtain ⟨hz, hrd, hl, _⟩ := hf hidle
    exact ⟨by simp [hl], hz, hrd⟩
  · intro z0 hidle
    have hne : c.poolDecompressor.idle ≠ [] := by rw [hidle]; simp
    obtain ⟨hm, ⟨obj, ho, hrd⟩, hl, _⟩ := hu hne
    have hz : z = z0 := by
      rw [hidle] at hm
      simpa using hm
    subst hz
    exact ⟨by simp [hl], rfl, obj, ho, hrd⟩

/-- Sequential decompress sessions that follow a session with log l0. -/
theorem decompressSessions_chain {E : Engine}
    (sessions : List (E.Source × List (List Byte) × Nat)) (c : State E) (hI : Inv c)
    (l0 : (E.Source × List (List Byte) × Nat) × DecompressLog E)
    (h0 : c.poolDecompressor.idle = l0.2.idle) (h1 : SessionAgrees l0)
    (h2 : c.heap.readers[l0.2.z]? =
      some { Reader := l0.2.last, pool := PoolRef.poolDecompressor }) :
    ∃ c1 logs, decompressSessions sessions c = some (c1, logs) ∧
      logs.map (fun l => l.1) = sessions ∧
      (∀ l ∈ logs, SessionAgrees l) ∧
      List.Chain SessionFollows l0 logs := by
  induction sessions generalizing c l0 with
  | nil => exact ⟨c, [], rfl, rfl, by simp, List.Chain.nil⟩
  | cons s rest ih =>
    obtain ⟨r, bufs, choice⟩ := s
    obtain ⟨_, hlast0, hidle0, _⟩ := h1
    have hle : c.poolDecompressor.idle.length ≤ 1 := by
      rw [h0, hidle0]; split <;> simp
    obtain ⟨c2, log, hS, hI2, hi2, hag, hlast, hf, hu⟩ :=
      decompressSession_ok c hI r bufs choice hle
    obtain ⟨c3, logs, hSS, hmap, hall, hch⟩ := ih c2 hI2 ((r, bufs, choice), log) hi2 hag hlast
    refine ⟨c3, ((r, bufs, choice), log) :: logs, ?_, by simp [hmap], ?_,
      List.Chain.cons ?_ hch⟩
    · simp only [decompressSessions, hS, hSS]
    · intro l hl
      rcases List.mem_cons.mp hl with h | h
      · subst h; exact hag
      · exact hall l h
    · constructor
      · intro he
        have hidle : c.poolDecompressor.idle = [Iface.reader l0.2.z] := by
          rw [h0, hidle0, if_pos he]
        obtain ⟨hcon, hz, obj, ho, hb⟩ := hu _ hidle
        rw [h2] at ho
        injection ho with ho
        subst ho
        refine ⟨hcon, hz, ?_⟩
        rw [hb, hlast0]
      · intro he
        have hne : ¬ ((Engine.readUntilEOF E l0.1.2.1 l0.2.bound).2 = true) := by simp [he]
        have hidle : c.poolDecompressor.idle = [] := by
          rw [h0, hidle0, if_neg hne]
        obtain ⟨hcon, _, hb⟩ := hf hidle
        refine ⟨?_, hcon, hb⟩
        rw [hidle0, if_neg hne]
        simp

/-- In a chain of sessions on each of which the engine reaches io.EOF, every session
uses the wrapper of the first and constructs nothing. -/
theorem chain_all_eof {E : Engine}
    (logs : List ((E.Source × List (List Byte) × Nat) × DecompressLog E))
    (l0 : (E.Source × List (List Byte) × Nat) × DecompressLog E)
    (hch : List.Chain SessionFollows l0 logs)
    (h0 : (Engine.readUntilEOF E l0.1.2.1 l0.2.bound).2 = true)
    (hall : ∀ l ∈ logs, (Engine.readUntilEOF E l.1.2.1 l.2.bound).2 = true) :
    ∀ l ∈ logs, l.2.constructed = false ∧ l.2.z = l0.2.z := by
  induction logs generalizing l0 with
  | nil => simp
  | cons a rest ih =>
    cases hch with
    | cons hr hrest =>
      have ha := hr.1 h0
      intro l hl
      rcases List.mem_cons.mp hl with h | h
      · subst h; exact ⟨ha.1, ha.2.1⟩
      · have := ih a hrest (hall a (List.mem_cons_self _ _))
          (fun x hx => hall x (List.mem_cons_of_mem _ hx)) l h
        exact ⟨this.1, by rw [this.2, ha.2.1]⟩

/-- C6 (end-of-stream recycling): from a reachable state with an empty decompressor pool,
any N ≥ 1 sequential decompress sessions complete, one log per session, and the pool
never holds more than one idle wrapper.  Each session sees io.EOF exactly when the
engine, read directly from the state Decompress bound, reaches it within the buffers
of the session, and then the wrapper is the one idle instance of the pool.  The first
session constructs a reader.  A session that follows one on which the engine reached
io.EOF constructs nothing and gets the same wrapper, Reset to its source; a session
that follows one that stopped earlier finds that wrapper not in the pool and constructs
a new reader.  So when the engine reaches io.EOF on every session, only the first
constructs and all use its wrapper. -/
theorem C6_eof_recycling (E : Engine) (c : State E) (hc : Reachable c)
    (hidle : c.poolDecompressor.idle = [])
    (sessions : List (E.Source × List (List Byte) × Nat)) (hN : 1 ≤ sessions.length) :
    ∃ c1 logs, decompressSessions sessions c = some (c1, logs) ∧
      logs.map (fun l => l.1) = sessions ∧
      (∀ l ∈ logs, SessionAgrees l) ∧
      (∃ l, logs.head? = some l ∧ l.2.constructed = true ∧ l.2.z = c.heap.readers.length ∧
        l.2.bound = E.NewReader l.1.1 (64 <<< 10)) ∧
      List.Chain' SessionFollows logs ∧
      ((∀ l ∈ logs, (Engine.readUntilEOF E l.1.2.1 l.2.bound).2 = true) →
        (∀ l ∈ logs, l.2.eof = true ∧ l.2.idle = [Iface.reader c.heap.readers.length]) ∧
        (∀ l ∈ logs.tail, l.2.constructed = false) ∧
        (∀ l ∈ logs, l.2.z = c.heap.readers.length)) := by
  have hI := Inv_of_Reachable c hc
  cases sessions with
  | nil => simp at hN
  | cons s rest =>
    obtain ⟨r, bufs, choice⟩ := s
    obtain ⟨c2, log, hS, hI2, hi2, hag, hlast, hf, _⟩ :=
      decompressSession_ok c hI r bufs choice (by rw [hidle]; simp)
    obtain ⟨hcon, hz, hb⟩ := hf hidle
    obtain ⟨c3, logs, hSS, hmap, hall, hch⟩ :=
      decompressSessions_chain rest c2 hI2 ((r, bufs, choice), log) hi2 hag hlast
    have hagree : ∀ l ∈ ((r, bufs, choice), log) :: logs, SessionAgrees l := by
      intro l hl
      rcases List.mem_cons.mp hl with h | h
      · subst h; exact hag
      · exact hall l h
    refine ⟨c3, ((r, bufs, choice), log) :: logs, ?_, by simp [hmap], hagree,
      ⟨((r, bufs, choice), log), rfl, hcon, hz, hb⟩, hch, ?_⟩
    · simp only [decompressSessions, hS, hSS]
    · intro he
      have hrest := chain_all_eof logs ((r, bufs, choice), log) hch
        (he _ (List.mem_cons_self _ _)) (fun x hx => he x (List.mem_cons_of_mem _ hx))
      have hzall : ∀ l ∈ ((r, bufs, choice), log) :: logs, l.2.z = c.heap.readers.length := by
        intro l hl
        rcases List.mem_cons.mp hl with h | h
        · subst h; exact hz
        · rw [(hrest l h).2]; exact hz
      refine ⟨?_, fun l hl => (hrest l hl).1, hzall⟩
      intro l hl
      obtain ⟨h1, _, h3, _⟩ := hagree l hl
      refine ⟨by rw [h1]; exact he l hl, ?_⟩
      rw [h3, if_pos (he l hl), hzall l hl]

/-- Witness of C6: three sessions on the stored-mode engine from init, on each of which
the engine reaches io.EOF: the first constructs the reader at address 0 and the two
others get it back from the pool.  In a second run the second of four sessions is
abandoned after one Read: its wrapper is not recycled, the third session constructs the
reader at address 1 and the fourth gets that one back. -/
theorem C6_eof_recycling_witness :
    Reachable storedInit ∧ storedInit.poolDecompressor.idle = [] ∧
    1 ≤ fullReads.length ∧
    logSummary (decompressSessions fullReads storedInit) =
      some [(0, true, true, [Iface.reader 0]), (0, false, true, [Iface.reader 0]),
        (0, false, true, [Iface.reader 0])] ∧
    logSummary (decompressSessions mixedReads storedInit) =
      some [(0, true, true, [Iface.reader 0]), (0, false, false, []),
        (1, true, true, [Iface.reader 1]), (1, false, true, [Iface.reader 1])] ∧
    ∃ c1 logs, decompressSessions fullReads storedInit = some (c1, logs) ∧
      logs.map (fun l => l.1) = fullReads ∧
      (∀ l ∈ logs, SessionAgrees l) ∧
      (∃ l, logs.head? = some l ∧ l.2.constructed = true ∧
        l.2.z = storedInit.heap.readers.length ∧
        l.2.bound = storedEngine.NewReader l.1.1 (64 <<< 10)) ∧
      List.Chain' SessionFollows logs ∧
      ((∀ l ∈ logs, (Engine.readUntilEOF storedEngine l.1.2.1 l.2.bound).2 = true) →
        (∀ l ∈ logs, l.2.eof = true ∧
          l.2.idle = [Iface.reader storedInit.heap.readers.length]) ∧
        (∀ l ∈ logs.tail, l.2.constructed = false) ∧
        (∀ l ∈ logs, l.2.z = storedInit.heap.readers.length)) :=
  ⟨⟨[], [], rfl⟩, rfl, by decide, rfl, rfl,
    C6_eof_recycling storedEngine storedInit ⟨[], [], rfl⟩ rfl fullReads (by decide)⟩

/-- Compress leaves every writer other than the one it returns as it was. -/
theorem Compress_frame {E : Engine} (c c1 : State E) (hI : Inv c) (w : E.Sink)
    (choice z : Nat) (e : error) (hC : Compress c w choice = Outcome.ok (c1, z, e))
    (a : Nat) (s : writer E) (ha : a ≠ z) (hs : c.heap.writers[a]? = some s) :
    c1.heap.writers[a]? = some s := by
  by_cases hidle : c.poolCompressor.idle = []
  · rw [Compress_fresh c w choice hI.newC hidle] at hC
    injection hC with hC
    injection hC with hc1 _
    subst hc1
    have hlt : a < c.heap.writers.length := (List.getElem?_eq_some.mp hs).1
    show (c.heap.writers ++ _)[a]? = some s
    rw [List.getElem?_append_left hlt]
    exact hs
  · obtain ⟨x, hget, hmem⟩ := idle_choice c.poolCompressor.idle hidle choice
    obtain ⟨z0, rfl, hz0⟩ := hI.idleC x hmem
    have hobj : c.heap.writers[z0]? = some c.heap.writers[z0] := List.getElem?_eq_getElem hz0
    rw [Compress_reuse c w choice z0 _ hidle hget hobj] at hC
    injection hC with hC
    injection hC with hc1 hC
    injection hC with hz _
    subst hc1 hz
    show (c.heap.writers.set z0 _)[a]? = some s
    rw [List.getElem?_set_ne (Ne.symm ha)]
    exact hs

/-- Decompress leaves every reader other than the one it returns as it was. -/
theorem Decompress_frame {E : Engine} (c c1 : State E) (hI : Inv c) (r : E.Source)
    (choice z : Nat) (e : error) (hD : Decompress c r choice = Outcome.ok (c1, z, e))
    (a : Nat) (s : reader E) (ha : a ≠ z) (hs : c.heap.readers[a]? = some s) :
    c1.heap.readers[a]? = some s := by
  by_cases hidle : c.poolDecompressor.idle = []
  · rw [Decompress_fresh c r choice hI.newD hidle] at hD
    injection hD with hD
    injection hD with hc1 _
    subst hc1
    have hlt : a < c.heap.readers.length := (List.getElem?_eq_some.mp hs).1
    show (c.heap.readers ++ _)[a]? = some s
    rw [List.getElem?_append_left hlt]
    exact hs
  · obtain ⟨x, hget, hmem⟩ := idle_choice c.poolDecompressor.idle hidle choice
    obtain ⟨z0, rfl, hz0⟩ := hI.idleD x hmem
    have hobj : c.heap.readers[z0]? = some c.heap.readers[z0] := List.getElem?_eq_getElem hz0
    rw [Decompress_reuse c r choice z0 _ hidle hget hobj] at hD
    injection hD with hD
    injection hD with hc1 hD
    injection hD with hz _
    subst hc1 hz
    show (c.heap.readers.set z0 _)[a]? = some s
    rw [List.getElem?_set_ne (Ne.symm ha)]
    exact hs

/-- Agreement of a caller depends on the state only through the wrapper it holds. -/
theorem Agrees_frame {E : Engine} (c c1 : State E) (t : Session E) (p : Progress E)
    (h : Agrees c t p)
    (hW : ∀ a s, p.wrapper = some (Iface.writer a) → c.heap.writers[a]? = some s →
      c1.heap.writers[a]? = some s)
    (hR : ∀ a s, p.wrapper = some (Iface.reader a) → c.heap.readers[a]? = some s →
      c1.heap.readers[a]? = some s) : Agrees c1 t p := by
  cases t with
  | compress w chunks =>
    cases p with
    | idle => trivial
    | writing z rest rs =>
      obtain ⟨s, hs, heq⟩ := h
      exact ⟨s, hW z _ rfl hs, heq⟩
    | wrote engine rs closeErr => exact h
    | reading z rest out => exact h
    | readDone out e => exact h
  | decompress r bufs =>
    cases p with
    | idle => trivial
    | writing z rest rs => exact h
    | wrote engine rs closeErr => exact h
    | reading z rest out =>
      obtain ⟨rd, hs, heq⟩ := h
      exact ⟨rd, hR z _ rfl hs, heq⟩
    | readDone out e => exact h

/-- One caller moves from p to p1 while the state moves from c to c1: the invariant of
interleaved sessions is kept when the pools gain at most the wrapper the caller held,
the wrappers of the other callers are untouched, and the wrapper the caller holds
afterwards is the one it held or one that nobody held. -/
theorem Interleaved_update {E : Engine} (c c1 : State E) (sessions : List (Session E))
    (ps : List (Progress E)) (i : Nat) (t : Session E) (p p1 : Progress E)
    (hJ : Interleaved c sessions ps) (ht : sessions[i]? = some t) (hp : ps[i]? = some p)
    (hI1 : Inv c1) (hndC : c1.poolCompressor.idle.Nodup) (hndD : c1.poolDecompressor.idle.Nodup)
    (hsubC : ∀ x ∈ c1.poolCompressor.idle, x ∈ c.poolCompressor.idle ∨ p.wrapper = some x)
    (hsubD : ∀ x ∈ c1.poolDecompressor.idle, x ∈ c.poolDecompressor.idle ∨ p.wrapper = some x)
    (hfW : ∀ a s, p.wrapper ≠ some (Iface.writer a) → p1.wrapper ≠ some (Iface.writer a) →
      c.heap.writers[a]? = some s → c1.heap.writers[a]? = some s)
    (hfR : ∀ a s, p.wrapper ≠ some (Iface.reader a) → p1.wrapper ≠ some (Iface.reader a) →
      c.heap.readers[a]? = some s → c1.heap.readers[a]? = some s)
    (hnew : ∀ x, p1.wrapper = some x →
      x ∉ c1.poolCompressor.idle ∧ x ∉ c1.poolDecompressor.idle ∧
      (p.wrapper = some x ∨
        ∀ (j : Nat) (q : Progress E), ps[j]? = some q → q.wrapper ≠ some x))
    (hag : Agrees c1 t p1) : Interleaved c1 sessions (ps.set i p1) := by
  have hi : i < ps.length := (List.getElem?_eq_some.mp hp).1
  have hself : (ps.set i p1)[i]? = some p1 := List.getElem?_set_self hi
  have hother : ∀ j, i ≠ j → (ps.set i p1)[j]? = ps[j]? := fun j hj => List.getElem?_set_ne hj
  -- a wrapper held by another caller is held by neither p nor p1
  have hfree : ∀ j q x, i ≠ j → ps[j]? = some q → q.wrapper = some x →
      p.wrapper ≠ some x ∧ p1.wrapper ≠ some x := by
    intro j q x hij hq hx
    have h1 : p.wrapper ≠ some x := hJ.distinct j i q p x (Ne.symm hij) hq hp hx
    refine ⟨h1, ?_⟩
    intro h2
    rcases (hnew x h2).2.2 with h3 | h3
    · exact h1 h3
    · exact h3 j q hq hx
  refine ⟨hI1, by rw [List.length_set]; exact hJ.len, hndC, hndD, ?_, ?_, ?_⟩
  · intro j q x hq hx
    by_cases hij : i = j
    · subst hij
      rw [hself] at hq
      injection hq with hq
      subst hq
      exact ⟨(hnew x hx).1, (hnew x hx).2.1⟩
    · rw [hother j hij] at hq
      obtain ⟨h1, h2⟩ := hJ.notIdle j q x hq hx
      have hne := (hfree j q x hij hq hx).1
      constructor
      · intro hm
        rcases hsubC x hm with h | h
        · exact h1 h
        · exact hne h
      · intro hm
        rcases hsubD x hm with h | h
        · exact h2 h
        · exact hne h
  · intro j k q q1 x hjk hq hq1 hx
    by_cases hij : i = j
    · subst hij
      rw [hself] at hq
      injection hq with hq
      subst hq
      rw [hother k hjk] at hq1
      intro hx1
      exact (hfree k q1 x hjk hq1 hx1).2 hx
    · rw [hother j hij] at hq
      by_cases hik : i = k
      · subst hik
        rw [hself] at hq1
        injection hq1 with hq1
        subst hq1
        exact (hfree j q x hij hq hx).2
      · rw [hother k hik] at hq1
        exact hJ.distinct j k q q1 x hjk hq hq1 hx
  · intro j t1 q ht1 hq
    by_cases hij : i = j
    · subst hij
      rw [hself] at hq
      injection hq with hq
      subst hq
      rw [ht] at ht1
      injection ht1 with ht1
      subst ht1
      exact hag
    · rw [hother j hij] at hq
      refine Agrees_frame c c1 t1 q (hJ.agrees j t1 q ht1 hq) ?_ ?_
      · intro a s hx hs
        obtain ⟨h1, h2⟩ := hfree j q _ hij hq hx
        exact hfW a s h1 h2 hs
      · intro a s hx hs
        obtain ⟨h1, h2⟩ := hfree j q _ hij hq hx
        exact hfR a s h1 h2 hs

/-- A writer that a caller holds is allocated. -/
theorem held_writer_alloc {E : Engine} (c : State E) (sessions : List (Session E))
    (ps : List (Progress E)) (hJ : Interleaved c sessions ps) (j : Nat) (q : Progress E)
    (a : Nat) (hq : ps[j]? = some q) (hx : q.wrapper = some (Iface.writer a)) :
    a < c.heap.writers.length := by
  have hj : j < sessions.length := by
    rw [← hJ.len]; exact (List.getElem?_eq_some.mp hq).1
  have hag := hJ.agrees j _ q (List.getElem?_eq_getElem hj) hq
  cases q with
  | writing z rest rs =>
    simp only [Progress.wrapper, Option.some.injEq, Iface.writer.injEq] at hx
    subst hx
    cases ht : sessions[j] with
    | compress w chunks =>
      rw [ht] at hag
      obtain ⟨s, hs, _⟩ := hag
      exact (List.getElem?_eq_some.mp hs).1
    | decompress r bufs =>
      rw [ht] at hag
      exact absurd hag (by simp [Agrees])
  | idle => simp [Progress.wrapper] at hx
  | wrote engine rs closeErr => simp [Progress.wrapper] at hx
  | reading z rest out => simp [Progress.wrapper] at hx
  | readDone out e => simp [Progress.wrapper] at hx

/-- A reader that a caller holds is allocated. -/
theorem held_reader_alloc {E : Engine} (c : State E) (sessions : List (Session E))
    (ps : List (Progress E)) (hJ : Interleaved c sessions ps) (j : Nat) (q : Progress E)
    (a : Nat) (hq : ps[j]? = some q) (hx : q.wrapper = some (Iface.reader a)) :
    a < c.heap.readers.length := by
  have hj : j < sessions.length := by
    rw [← hJ.len]; exact (List.getElem?_eq_some.mp hq).1
  have hag := hJ.agrees j _ q (List.getElem?_eq_getElem hj) hq
  cases q with
  | reading z rest out =>
    simp only [Progress.wrapper, Option.some.injEq, Iface.reader.injEq] at hx
    subst hx
    cases ht : sessions[j] with
    | compress w chunks =>
      rw [ht] at hag
      exact absurd hag (by simp [Agrees])
    | decompress r bufs =>
      rw [ht] at hag
      obtain ⟨s, hs, _⟩ := hag
      exact (List.getElem?_eq_some.mp hs).1
  | idle => simp [Progress.wrapper] at hx
  | wrote engine rs closeErr => simp [Progress.wrapper] at hx
  | writing z rest rs => simp [Progress.wrapper] at hx
  | readDone out e => simp [Progress.wrapper] at hx

/-- The acquisition of a compress session among interleaved sessions. -/
theorem step_idle_compress {E : Engine}
    (hW : ∀ (s s' : E.Writer) (w : E.Sink), E.WriterReset s w = E.WriterReset s' w)
    (c : State E) (sessions : List (Session E)) (ps : List (Progress E)) (i : Nat)
    (w : E.Sink) (chunks : List (List Byte)) (choice : Nat)
    (hJ : Interleaved c sessions ps) (ht : sessions[i]? = some (Session.compress w chunks))
    (hp : ps[i]? = some Progress.idle) :
    ∃ c1 p1, stepCaller c (Session.compress w chunks) Progress.idle choice = some (c1, p1) ∧
      Interleaved c1 sessions (ps.set i p1) := by
  obtain ⟨c1, z, w0, hC, hI1, hobj1, hr, hd, hf, hu⟩ := Compress_ok c hJ.inv w choice
  refine ⟨c1, Progress.writing z chunks [], by simp only [stepCaller, hC], ?_⟩
  have hnotD : Iface.writer z ∉ c1.poolDecompressor.idle := by
    intro h
    obtain ⟨a, ha, _⟩ := hI1.idleD _ h
    cases ha
  refine Interleaved_update c c1 sessions ps i _ Progress.idle _ hJ ht hp hI1 ?_ ?_ ?_ ?_ ?_ ?_
    ?_ ?_
  · by_cases hidle : c.poolCompressor.idle = []
    · rw [(hf hidle).2.2.2]; exact List.nodup_nil
    · rw [(hu hidle).2.2.1]; exact List.Nodup.eraseIdx _ hJ.nodupC
  · rw [hd]; exact hJ.nodupD
  · intro x hx
    by_cases hidle : c.poolCompressor.idle = []
    · rw [(hf hidle).2.2.2] at hx; cases hx
    · rw [(hu hidle).2.2.1] at hx
      exact Or.inl (List.mem_of_mem_eraseIdx hx)
  · intro x hx
    rw [hd] at hx
    exact Or.inl hx
  · intro a s _ h2 hs
    have ha : a ≠ z := by
      intro h
      subst h
      exact h2 rfl
    exact Compress_frame c c1 hJ.inv w choice z none hC a s ha hs
  · intro a s _ _ hs
    rw [hr]; exact hs
  · intro x hx
    simp only [Progress.wrapper, Option.some.injEq] at hx
    subst hx
    refine ⟨?_, hnotD, Or.inr ?_⟩
    · by_cases hidle : c.poolCompressor.idle = []
      · rw [(hf hidle).2.2.2]; simp
      · rw [(hu hidle).2.2.1]
        exact not_mem_eraseIdx_of_nodup _ _ _ hJ.nodupC (hu hidle).2.2.2
    · intro j q hq hx
      by_cases hidle : c.poolCompressor.idle = []
      · have := held_writer_alloc c sessions ps hJ j q z hq hx
        have hz := (hf hidle).1
        omega
      · exact (hJ.notIdle j q _ hq hx).1 (hu hidle).1
  · refine ⟨E.WriterReset w0 w, hobj1, ?_⟩
    rw [hW w0 (E.NewWriter E.Discard) w]
    simp

/-- The acquisition of a decompress session among interleaved sessions. -/
theorem step_idle_decompress {E : Engine}
    (hR : ∀ (r : E.Reader) (src : E.Source), E.ReaderReset r src = E.NewReader src (64 <<< 10))
    (c : State E) (sessions : List (Session E)) (ps : List (Progress E)) (i : Nat)
    (r : E.Source) (bufs : List (List Byte)) (choice : Nat)
    (hJ : Interleaved c sessions ps) (ht : sessions[i]? = some (Session.decompress r bufs))
    (hp : ps[i]? = some Progress.idle) :
    ∃ c1 p1, stepCaller c (Session.decompress r bufs) Progress.idle choice = some (c1, p1) ∧
      Interleaved c1 sessions (ps.set i p1) := by
  obtain ⟨c1, z, rd, hD, hI1, hobj1, hw, hpc, hf, hu⟩ := Decompress_ok c hJ.inv r choice
  refine ⟨c1, Progress.reading z bufs [], by simp only [stepCaller, hD], ?_⟩
  have hnotC : Iface.reader z ∉ c1.poolCompressor.idle := by
    intro h
    obtain ⟨a, ha, _⟩ := hI1.idleC _ h
    cases ha
  have hrd : rd = E.NewReader r (64 <<< 10) := by
    by_cases hidle : c.poolDecompressor.idle = []
    · exact (hf hidle).2.1
    · obtain ⟨obj, _, h⟩ := (hu hidle).2.1
      rw [h, hR]
  refine Interleaved_update c c1 sessions ps i _ Progress.idle _ hJ ht hp hI1 ?_ ?_ ?_ ?_ ?_ ?_
    ?_ ?_
  · rw [hpc]; exact hJ.nodupC
  · by_cases hidle : c.poolDecompressor.idle = []
    · rw [(hf hidle).2.2.2]; exact List.nodup_nil
    · rw [(hu hidle).2.2.2.1]; exact List.Nodup.eraseIdx _ hJ.nodupD
  · intro x hx
    rw [hpc] at hx
    exact Or.inl hx
  · intro x hx
    by_cases hidle : c.poolDecompressor.idle = []
    · rw [(hf hidle).2.2.2] at hx; cases hx
    · rw [(hu hidle).2.2.2.1] at hx
      exact Or.inl (List.mem_of_mem_eraseIdx hx)
  · intro a s _ _ hs
    rw [hw]; exact hs
  · intro a s _ h2 hs
    have ha : a ≠ z := by
      intro h
      subst h
      exact h2 rfl
    exact Decompress_frame c c1 hJ.inv r choice z none hD a s ha hs
  · intro x hx
    simp only [Progress.wrapper, Option.some.injEq] at hx
    subst hx
    refine ⟨hnotC, ?_, Or.inr ?_⟩
    · by_cases hidle : c.poolDecompressor.idle = []
      · rw [(hf hidle).2.2.2]; simp
      · rw [(hu hidle).2.2.2.1]
        exact not_mem_eraseIdx_of_nodup _ _ _ hJ.nodupD (hu hidle).2.2.2.2
    · intro j q hq hx
      by_cases hidle : c.poolDecompressor.idle = []
      · have := held_reader_alloc c sessions ps hJ j q z hq hx
        have hz := (hf hidle).1
        omega
      · exact (hJ.notIdle j q _ hq hx).2 (hu hidle).1
  · refine ⟨rd, hobj1, ?_⟩
    rw [hrd]
    simp

/-- A Write of a compress session among interleaved sessions. -/
theorem step_write {E : Engine} (c : State E) (sessions : List (Session E))
    (ps : List (Progress E)) (i : Nat) (t : Session E) (z : Nat) (q : List Byte)
    (rest : List (List Byte)) (rs : List (Int × error)) (choice : Nat)
    (hJ : Interleaved c sessions ps) (ht : sessions[i]? = some t)
    (hp : ps[i]? = some (Progress.writing z (q :: rest) rs)) :
    ∃ c1 p1, stepCaller c t (Progress.writing z (q :: rest) rs) choice = some (c1, p1) ∧
      Interleaved c1 sessions (ps.set i p1) := by
  have hag := hJ.agrees i t _ ht hp
  cases t with
  | decompress r bufs => exact absurd hag (by simp [Agrees])
  | compress w chunks =>
    obtain ⟨s, hs, heq⟩ := hag
    have hz : z < c.heap.writers.length := (List.getElem?_eq_some.mp hs).1
    obtain ⟨c1, hWr, hI1, hws, hrs, hpc, hpd⟩ := Write_ok c hJ.inv z q _ hs
    simp only at hWr hws
    have hni := hJ.notIdle i _ (Iface.writer z) hp rfl
    refine ⟨c1, Progress.writing z rest
      (rs ++ [((E.WriterWrite s q).2.1, (E.WriterWrite s q).2.2)]),
      by simp only [stepCaller, hWr], ?_⟩
    refine Interleaved_update c c1 sessions ps i _ _ _ hJ ht hp hI1 (by rw [hpc]; exact hJ.nodupC)
      (by rw [hpd]; exact hJ.nodupD) (fun x hx => Or.inl (by rw [hpc] at hx; exact hx))
      (fun x hx => Or.inl (by rw [hpd] at hx; exact hx)) ?_ ?_ ?_ ?_
    · intro a s1 h1 _ hs1
      have ha : z ≠ a := by
        intro h
        subst h
        exact h1 rfl
      rw [hws, List.getElem?_set_ne ha]
      exact hs1
    · intro a s1 _ _ hs1
      rw [hrs]; exact hs1
    · intro x hx
      simp only [Progress.wrapper, Option.some.injEq] at hx
      subst hx
      exact ⟨by rw [hpc]; exact hni.1, by rw [hpd]; exact hni.2, Or.inl rfl⟩
    · refine ⟨(E.WriterWrite s q).1, by rw [hws]; exact List.getElem?_set_self hz, ?_⟩
      rw [heq]
      simp [Engine.session, Engine.writeAll]

/-- The Close of a compress session among interleaved sessions. -/
theorem step_close {E : Engine} (c : State E) (sessions : List (Session E))
    (ps : List (Progress E)) (i : Nat) (t : Session E) (z : Nat)
    (rs : List (Int × error)) (choice : Nat)
    (hJ : Interleaved c sessions ps) (ht : sessions[i]? = some t)
    (hp : ps[i]? = some (Progress.writing z [] rs)) :
    ∃ c1 p1, stepCaller c t (Progress.writing z [] rs) choice = some (c1, p1) ∧
      Interleaved c1 sessions (ps.set i p1) := by
  have hag := hJ.agrees i t _ ht hp
  cases t with
  | decompress r bufs => exact absurd hag (by simp [Agrees])
  | compress w chunks =>
    obtain ⟨s, hs, heq⟩ := hag
    have hz : z < c.heap.writers.length := (List.getElem?_eq_some.mp hs).1
    obtain ⟨c1, hCl, hI1, hws, hrs, hidle, hpd⟩ := Close_ok c hJ.inv z _ hs
    simp only at hCl hws
    have hni := hJ.notIdle i _ (Iface.writer z) hp rfl
    have hobj1 : c1.heap.writers[z]? = some
        { Writer := (E.WriterClose s).1, pool := PoolRef.poolCompressor } := by
      rw [hws]; exact List.getElem?_set_self hz
    refine ⟨c1, Progress.wrote (E.WriterClose s).1 rs (E.WriterClose s).2,
      by simp only [stepCaller, hCl, hobj1], ?_⟩
    refine Interleaved_update c c1 sessions ps i _ _ _ hJ ht hp hI1 ?_
      (by rw [hpd]; exact hJ.nodupD) ?_
      (fun x hx => Or.inl (by rw [hpd] at hx; exact hx)) ?_ ?_ ?_ ?_
    · rw [hidle]
      exact List.nodup_cons.mpr ⟨hni.1, hJ.nodupC⟩
    · intro x hx
      rw [hidle] at hx
      rcases List.mem_cons.mp hx with h | h
      · exact Or.inr (by rw [h]; rfl)
      · exact Or.inl h
    · intro a s1 h1 _ hs1
      have ha : z ≠ a := by
        intro h
        subst h
        exact h1 rfl
      rw [hws, List.getElem?_set_ne ha]
      exact hs1
    · intro a s1 _ _ hs1
      rw [hrs]; exact hs1
    · intro x hx
      simp [Progress.wrapper] at hx
    · show (_, _, _) = Engine.session E _ chunks
      rw [heq]
      simp [Engine.session, Engine.writeAll]

/-- A Read of a decompress session among interleaved sessions. -/
theorem step_read {E : Engine} (c : State E) (sessions : List (Session E))
    (ps : List (Progress E)) (i : Nat) (t : Session E) (z : Nat) (q : List Byte)
    (rest : List (List Byte)) (out : List Byte) (choice : Nat)
    (hJ : Interleaved c sessions ps) (ht : sessions[i]? = some t)
    (hp : ps[i]? = some (Progress.reading z (q :: rest) out)) :
    ∃ c1 p1, stepCaller c t (Progress.reading z (q :: rest) out) choice = some (c1, p1) ∧
      Interleaved c1 sessions (ps.set i p1) := by
  have hag := hJ.agrees i t _ ht hp
  cases t with
  | compress w chunks => exact absurd hag (by simp [Agrees])
  | decompress r bufs =>
    obtain ⟨rd, hs, heq⟩ := hag
    have hz : z < c.heap.readers.length := (List.getElem?_eq_some.mp hs).1
    obtain ⟨c1, hRd, hI1, hrs, hws, hpc, _, heof, hne⟩ := Read_ok c hJ.inv z q _ hs
    simp only at hRd hrs heof hne
    have hni := hJ.notIdle i _ (Iface.reader z) hp rfl
    have hobj1 : c1.heap.readers[z]? = some
        { Reader := (E.ReaderRead rd q).1, pool := PoolRef.poolDecompressor } := by
      rw [hrs]; exact List.getElem?_set_self hz
    have hndD : c1.poolDecompressor.idle.Nodup := by
      by_cases he : (E.ReaderRead rd q).2.2.2 = io.EOF
      · rw [heof he]
        exact List.nodup_cons.mpr ⟨hni.2, hJ.nodupD⟩
      · rw [hne he]; exact hJ.nodupD
    have hsubD : ∀ x ∈ c1.poolDecompressor.idle, x ∈ c.poolDecompressor.idle ∨
        (Progress.reading z (q :: rest) out : Progress E).wrapper = some x := by
      intro x hx
      by_cases he : (E.ReaderRead rd q).2.2.2 = io.EOF
      · rw [heof he] at hx
        rcases List.mem_cons.mp hx with h | h
        · exact Or.inr (by rw [h]; rfl)
        · exact Or.inl h
      · rw [hne he] at hx
        exact Or.inl hx
    have hfR : ∀ (a : Nat) (s1 : reader E),
        (Progress.reading z (q :: rest) out : Progress E).wrapper ≠ some (Iface.reader a) →
        c.heap.readers[a]? = some s1 → c1.heap.readers[a]? = some s1 := by
      intro a s1 h1 hs1
      have ha : z ≠ a := by
        intro h
        subst h
        exact h1 rfl
      rw [hrs, List.getElem?_set_ne ha]
      exact hs1
    rcases hres : E.ReaderRead rd q with ⟨r1, p1, n, err⟩
    rw [hres] at hRd hobj1
    cases err with
    | some e =>
      refine ⟨c1, Progress.readDone (out ++ p1.take n.toNat) (some e),
        by simp only [stepCaller, hRd], ?_⟩
      refine Interleaved_update c c1 sessions ps i _ _ _ hJ ht hp hI1
        (by rw [hpc]; exact hJ.nodupC) hndD
        (fun x hx => Or.inl (by rw [hpc] at hx; exact hx)) hsubD ?_ ?_ ?_ ?_
      · intro a s1 _ _ hs1
        rw [hws]; exact hs1
      · intro a s1 h1 _ hs1
        exact hfR a s1 h1 hs1
      · intro x hx
        simp [Progress.wrapper] at hx
      · show (_, _) = Engine.readBufs E bufs _
        rw [heq]
        simp [Engine.readBufs, hres]
    | none =>
      have hnone : (E.ReaderRead rd q).2.2.2 ≠ io.EOF := by
        rw [hres]
        simp [io.EOF]
      refine ⟨c1, Progress.reading z rest (out ++ p1.take n.toNat),
        by simp only [stepCaller, hRd], ?_⟩
      refine Interleaved_update c c1 sessions ps i _ _ _ hJ ht hp hI1
        (by rw [hpc]; exact hJ.nodupC) hndD
        (fun x hx => Or.inl (by rw [hpc] at hx; exact hx)) hsubD ?_ ?_ ?_ ?_
      · intro a s1 _ _ hs1
        rw [hws]; exact hs1
      · intro a s1 h1 _ hs1
        exact hfR a s1 h1 hs1
      · intro x hx
        simp only [Progress.wrapper, Option.some.injEq] at hx
        subst hx
        exact ⟨by rw [hpc]; exact hni.1, by rw [hne hnone]; exact hni.2, Or.inl rfl⟩
      · refine ⟨r1, hobj1, ?_⟩
        rw [heq]
        simp [Engine.readBufs, hres]

/-- A caller that makes no call leaves the invariant of interleaved sessions as it is:
it gives up a decompress session whose buffers ran out, or its session is over. -/
theorem step_still {E : Engine} (c : State E) (sessions : List (Session E))
    (ps : List (Progress E)) (i : Nat) (t : Session E) (p p1 : Progress E)
    (hJ : Interleaved c sessions ps) (ht : sessions[i]? = some t) (hp : ps[i]? = some p)
    (hw : p1.wrapper = none) (hag : Agrees c t p1) :
    Interleaved c sessions (ps.set i p1) := by
  refine Interleaved_update c c sessions ps i t p p1 hJ ht hp hJ.inv hJ.nodupC hJ.nodupD
    (fun x hx => Or.inl hx) (fun x hx => Or.inl hx) (fun a s _ _ hs => hs)
    (fun a s _ _ hs => hs) ?_ hag
  intro x hx
  rw [hw] at hx
  cases hx

/-- Every next call of a caller among interleaved sessions succeeds and keeps the
invariant. -/
theorem Interleaved_step {E : Engine}
    (hW : ∀ (s s' : E.Writer) (w : E.Sink), E.WriterReset s w = E.WriterReset s' w)
    (hR : ∀ (r : E.Reader) (src : E.Source), E.ReaderReset r src = E.NewReader src (64 <<< 10))
    (c : State E) (sessions : List (Session E)) (ps : List (Progress E)) (i : Nat)
    (t : Session E) (p : Progress E) (choice : Nat)
    (hJ : Interleaved c sessions ps) (ht : sessions[i]? = some t) (hp : ps[i]? = some p) :
    ∃ c1 p1, stepCaller c t p choice = some (c1, p1) ∧
      Interleaved c1 sessions (ps.set i p1) := by
  cases p with
  | idle =>
    cases t with
    | compress w chunks => exact step_idle_compress hW c sessions ps i w chunks choice hJ ht hp
    | decompress r bufs => exact step_idle_decompress hR c sessions ps i r bufs choice hJ ht hp
  | writing z rest rs =>
    cases rest with
    | nil => exact step_close c sessions ps i t z rs choice hJ ht hp
    | cons q rest => exact step_write c sessions ps i t z q rest rs choice hJ ht hp
  | wrote engine rs closeErr =>
    exact ⟨c, _, rfl, step_still c sessions ps i t _ _ hJ ht hp rfl (hJ.agrees i t _ ht hp)⟩
  | reading z rest out =>
    cases rest with
    | nil =>
      refine ⟨c, Progress.readDone out none, rfl, step_still c sessions ps i t _ _ hJ ht hp rfl ?_⟩
      have hag := hJ.agrees i t _ ht hp
      cases t with
      | compress w chunks => exact absurd hag (by simp [Agrees])
      | decompress r bufs =>
        obtain ⟨rd, _, heq⟩ := hag
        show (_, _) = Engine.readBufs E bufs _
        rw [heq]
        simp [Engine.readBufs]
    | cons q rest => exact step_read c sessions ps i t z q rest out choice hJ ht hp
  | readDone out e =>
    exact ⟨c, _, rfl, step_still c sessions ps i t _ _ hJ ht hp rfl (hJ.agrees i t _ ht hp)⟩

/-- Every schedule runs to its end and keeps the invariant of interleaved sessions. -/
theorem Interleaved_run {E : Engine}
    (hW : ∀ (s s' : E.Writer) (w : E.Sink), E.WriterReset s w = E.WriterReset s' w)
    (hR : ∀ (r : E.Reader) (src : E.Source), E.ReaderReset r src = E.NewReader src (64 <<< 10))
    (sessions : List (Session E)) (sched : List (Nat × Nat)) (c : State E)
    (ps : List (Progress E)) (hJ : Interleaved c sessions ps) :
    ∃ c1 ps1, runSchedule sessions sched c ps = some (c1, ps1) ∧
      Interleaved c1 sessions ps1 := by
  induction sched generalizing c ps with
  | nil => exact ⟨c, ps, rfl, hJ⟩
  | cons k rest ih =>
    obtain ⟨i, choice⟩ := k
    cases ht : sessions[i]? with
    | none =>
      obtain ⟨c1, ps1, hrun, hJ1⟩ := ih c ps hJ
      exact ⟨c1, ps1, by simp only [runSchedule, ht, hrun], hJ1⟩
    | some t =>
      cases hp : ps[i]? with
      | none =>
        obtain ⟨c1, ps1, hrun, hJ1⟩ := ih c ps hJ
        exact ⟨c1, ps1, by simp only [runSchedule, ht, hp, hrun], hJ1⟩
      | some p =>
        obtain ⟨c2, p2, hstep, hJ2⟩ := Interleaved_step hW hR c sessions ps i t p choice hJ ht hp
        obtain ⟨c1, ps1, hrun, hJ1⟩ := ih c2 (ps.set i p2) hJ2
        exact ⟨c1, ps1, by simp only [runSchedule, ht, hp, hstep, hrun], hJ1⟩

/-- Callers that have not started are in the invariant of interleaved sessions on every
reachable codec whose pools hold no wrapper twice. -/
theorem Interleaved_start {E : Engine} (c : State E) (hc : Reachable c)
    (hnC : c.poolCompressor.idle.Nodup) (hnD : c.poolDecompressor.idle.Nodup)
    (sessions : List (Session E)) :
    Interleaved c sessions (sessions.map (fun _ => Progress.idle)) := by
  have hidle : ∀ (i : Nat) (p : Progress E),
      (sessions.map (fun _ => (Progress.idle : Progress E)))[i]? = some p →
      p = Progress.idle := by
    intro i p hp
    rw [List.getElem?_map] at hp
    cases hs : sessions[i]? with
    | none => rw [hs] at hp; cases hp
    | some t =>
      rw [hs] at hp
      simp only [Option.map_some', Option.some.injEq] at hp
      exact hp.symm
  refine ⟨Inv_of_Reachable c hc, by simp, hnC, hnD, ?_, ?_, ?_⟩
  · intro i p x hp hx
    rw [hidle i p hp] at hx
    cases hx
  · intro i j p q x _ hp _ hx
    rw [hidle i p hp] at hx
    cases hx
  · intro i t p _ hp
    rw [hidle i p hp]
    cases t <;> trivial

/-- C9 (sessions interleaved call by call): assume the engine Reset discards the state
of a writer and leaves a reader like a newly constructed one.  Let any number of callers
each run one compress or decompress session on the shared codec, started in a reachable
state whose pools hold no wrapper twice, and let a schedule interleave their calls in
any order, with any choice of the pools.  Then no call panics or fails, no two callers
ever hold the same wrapper, and every caller agrees with the engine used alone on its
own session: a finished compress session has exactly the engine state, Write results
and Close error of a new writer on its own sink and chunks, and a finished decompress
session has exactly the bytes and final error of a new reader on its own source, so
when the engine decodes that source to a payload and io.EOF, the session yields that
payload. -/
theorem C9_interleaved_sessions (E : Engine)
    (hW : ∀ (s s' : E.Writer) (w : E.Sink), E.WriterReset s w = E.WriterReset s' w)
    (hR : ∀ (r : E.Reader) (src : E.Source), E.ReaderReset r src = E.NewReader src (64 <<< 10))
    (c : State E) (hc : Reachable c)
    (hnC : c.poolCompressor.idle.Nodup) (hnD : c.poolDecompressor.idle.Nodup)
    (sessions : List (Session E)) (sched : List (Nat × Nat)) :
    ∃ c1 ps,
      runSchedule sessions sched c (sessions.map (fun _ => Progress.idle)) = some (c1, ps) ∧
      ps.length = sessions.length ∧
      (∀ (i : Nat) (t : Session E) (p : Progress E),
        sessions[i]? = some t → ps[i]? = some p → Agrees c1 t p) ∧
      (∀ (i j : Nat) (p q : Progress E) (x : Iface), i ≠ j → ps[i]? = some p →
        ps[j]? = some q → p.wrapper = some x → q.wrapper ≠ some x) ∧
      (∀ (i : Nat) (w : E.Sink) (chunks : List (List Byte)) (engine : E.Writer)
          (rs : List (Int × error)) (closeErr : error),
        sessions[i]? = some (Session.compress w chunks) →
        ps[i]? = some (Progress.wrote engine rs closeErr) →
        (engine, rs, closeErr) =
          Engine.session E (E.WriterReset (E.NewWriter E.Discard) w) chunks) ∧
      (∀ (i : Nat) (r : E.Source) (bufs : List (List Byte)) (out payload : List Byte)
          (e : Option GoError),
        sessions[i]? = some (Session.decompress r bufs) →
        ps[i]? = some (Progress.readDone out e) →
        Engine.readBufs E bufs (E.NewReader r (64 <<< 10)) = (payload, some GoError.EOF) →
        out = payload ∧ e = some GoError.EOF) := by
  obtain ⟨c1, ps, hrun, hJ⟩ := Interleaved_run hW hR sessions sched c _
    (Interleaved_start c hc hnC hnD sessions)
  refine ⟨c1, ps, hrun, hJ.len, hJ.agrees, hJ.distinct, ?_, ?_⟩
  · intro i w chunks engine rs closeErr ht hp
    exact hJ.agrees i _ _ ht hp
  · intro i r bufs out payload e ht hp hdec
    have hag : (out, e) = Engine.readBufs E bufs (E.NewReader r (64 <<< 10)) :=
      hJ.agrees i _ _ ht hp
    rw [hdec] at hag
    injection hag with h1 h2
    exact ⟨h1, h2⟩

/-- Witness of C9: on the stored-mode engine, from a state where both pools hold a used
wrapper, two compress sessions and two decompress sessions take turns call by call.
All four finish: each sink has received the payload of its own session and each
decompress session has read its own source to io.EOF. -/
theorem C9_interleaved_sessions_witness :
    (∀ (s s1 : storedEngine.Writer) (w : storedEngine.Sink),
      storedEngine.WriterReset s w = storedEngine.WriterReset s1 w) ∧
    (∀ (r : storedEngine.Reader) (src : storedEngine.Source),
      storedEngine.ReaderReset r src = storedEngine.NewReader src (64 <<< 10)) ∧
    Reachable (storedRun fullSessions) ∧
    (storedRun fullSessions).poolCompressor.idle.Nodup ∧
    (storedRun fullSessions).poolDecompressor.idle.Nodup ∧
    (runSchedule fourCallers roundRobin (storedRun fullSessions)
        (fourCallers.map (fun _ => Progress.idle))).map (fun r => r.2) =
      some [Progress.wrote
          ({ sink := { data := [1, 2, 3], broken := false }, ibuf := [], errState := none } :
            Stored.Writer)
          [(2, none), (1, none)] none,
        Progress.readDone [4, 5, 6] (some GoError.EOF),
        Progress.wrote
          ({ sink := { data := [7], broken := false }, ibuf := [], errState := none } :
            Stored.Writer)
          [(1, none)] none,
        Progress.readDone [8] (some GoError.EOF)] ∧
    ∃ c1 ps,
      runSchedule fourCallers roundRobin (storedRun fullSessions)
        (fourCallers.map (fun _ => Progress.idle)) = some (c1, ps) ∧
      ps.length = fourCallers.length ∧
      (∀ (i : Nat) (t : Session storedEngine) (p : Progress storedEngine),
        fourCallers[i]? = some t → ps[i]? = some p → Agrees c1 t p) ∧
      (∀ (i j : Nat) (p q : Progress storedEngine) (x : Iface), i ≠ j → ps[i]? = some p →
        ps[j]? = some q → p.wrapper = some x → q.wrapper ≠ some x) :=
  ⟨fun _ _ _ => rfl, fun _ _ => rfl, ⟨[], fullSessions, rfl⟩, by decide, by decide, rfl,
    (C9_interleaved_sessions storedEngine (fun _ _ _ => rfl) (fun _ _ => rfl)
      (storedRun fullSessions) ⟨[], fullSessions, rfl⟩ (by decide) (by decide)
      fourCallers roundRobin).imp
      (fun _ h => h.imp (fun _ h1 => ⟨h1.1, h1.2.1, h1.2.2.1, h1.2.2.2.1⟩))⟩

end KlauspostSnappy
